import Mathlib

/-!
# Verification of the QtPyVCP tool-table subsystem

Shallow embedding of the tool-table plugins
(`qtpyvcp/plugins/tool_table.py` and `qtpyvcp/plugins/db_tool_table.py`):
the flat-file codec (`loadToolTable` / `saveToolTable`), the column
validation helper, the current-tool lookup, and the database
reconciliation path.

Strings are modelled as `List Char`; Python floats are modelled as exact
rationals (`ℚ`), with the `%.6f` write format modelled as rounding to six
decimal places; Python dicts keyed by tool number are modelled as
association lists in insertion order.
-/

/-! ## Basic Python string primitives on `List Char` -/

/-- The whitespace characters stripped by Python's `str.strip()`. -/
def isPyWS (c : Char) : Bool :=
  c = ' ' || c = '\t' || c = '\n' || c = '\x0d' || c = '\x0b' || c = '\x0c'

/-- Python `str.strip()`: drop leading and trailing whitespace. -/
def pyStrip (s : List Char) : List Char :=
  ((s.dropWhile isPyWS).reverse.dropWhile isPyWS).reverse

/-- Python `str.replace(' ', '')`: remove every space character. -/
def removeSpaces (s : List Char) : List Char :=
  s.filter (fun c => c ≠ ' ')

/-- Python `str.partition(sep)` (first and last component; the separator
itself is dropped).  If the separator is absent the whole string is the
first component and the second is empty. -/
def pyPartition (sep : Char) : List Char → List Char × List Char
  | [] => ([], [])
  | c :: rest =>
      if c = sep then ([], rest)
      else
        let p := pyPartition sep rest
        (c :: p.1, p.2)

/-- Python `str.upper()` (ASCII as used by the plugin). -/
def pyUpper (s : List Char) : List Char := s.map Char.toUpper

/-- Python `str.lower()` (ASCII as used by the plugin). -/
def pyLower (s : List Char) : List Char := s.map Char.toLower

/-- `'0'`-based value of a decimal digit character. -/
def charVal (c : Char) : Nat := c.toNat - 48

/-- Decimal digit character for a value below ten. -/
def digitChar (n : Nat) : Char := Char.ofNat (48 + n)

/-- Value of a digit string read in base ten (junk-free input assumed by
callers; used only beneath `digitsToNat?` and in round-trip lemmas). -/
def digitsVal (s : List Char) : Nat :=
  s.foldl (fun a c => a * 10 + charVal c) 0

/-- Parse a non-empty all-digit string, else fail. -/
def digitsToNat? (s : List Char) : Option Nat :=
  if s ≠ [] ∧ s.all Char.isDigit then some (digitsVal s) else none

/-- Python `int(value)` on the token alphabet reachable from the tool-table
tokenizer (`[0-9.+-]+` and stray letters from multi-letter prefixes): an
optional single sign followed by one or more digits, anything else fails. -/
def pyInt (s : List Char) : Option Int :=
  if s.head? = some '+' then (digitsToNat? s.tail).map (fun n => (n : Int))
  else if s.head? = some '-' then (digitsToNat? s.tail).map (fun n => -(n : Int))
  else (digitsToNat? s).map (fun n => (n : Int))

/-- Unsigned part of Python `float(value)` on the reachable alphabet:
`digits`, `digits . digits`, `digits .`, `. digits`. -/
def pyFloatUnsigned (s : List Char) : Option ℚ :=
  let ip := s.takeWhile Char.isDigit
  let rest := s.dropWhile Char.isDigit
  if rest = [] then (if ip = [] then none else some (digitsVal ip : ℚ))
  else if rest.head? = some '.' ∧ rest.tail.all Char.isDigit ∧ (ip ≠ [] ∨ rest.tail ≠ []) then
    some (mkRat (digitsVal ip * 10 ^ rest.tail.length + digitsVal rest.tail)
      (10 ^ rest.tail.length))
  else none

/-- Python `float(value)` on the reachable alphabet: optional single sign
then an unsigned decimal literal. -/
def pyFloat (s : List Char) : Option ℚ :=
  if s.head? = some '+' then pyFloatUnsigned s.tail
  else if s.head? = some '-' then (pyFloatUnsigned s.tail).map (fun q => -q)
  else pyFloatUnsigned s

/-! ## Decimal formatting (Python `str(int)` and `'{:+.6f}'`) -/

/-- Decimal digits of a natural number, most significant first (fuel-based
so the kernel can evaluate it; `natToChars_eq` is the defining equation). -/
def natToCharsFuel : Nat → Nat → List Char
  | 0, _ => []
  | fuel + 1, n =>
      if n < 10 then [digitChar n]
      else natToCharsFuel fuel (n / 10) ++ [digitChar (n % 10)]

def natToChars (n : Nat) : List Char := natToCharsFuel (n + 1) n

/-- Python `str(n)` for an `int`. -/
def intToChars (n : Int) : List Char :=
  if n < 0 then '-' :: natToChars n.natAbs else natToChars n.natAbs

/-- The rounded integer numerator `round(q * 10^6)` behind the `%.6f`
format.  (Python rounds the IEEE-754 double half-to-even; on the exact
rationals of this embedding we use `round`, which agrees on every value
that is exactly representable with six decimal places.) -/
def rnd6 (q : ℚ) : Int := round (q * 1000000)

/-- The rational actually printed by the `%.6f` format: `q` rounded to six
decimal places. -/
def rat6 (q : ℚ) : ℚ := (rnd6 q : ℚ) / 1000000

/-- Left-pad a digit string with zeros to six characters (the fractional
part of the `%.6f` format). -/
def padZeros6 (s : List Char) : List Char :=
  List.replicate (6 - s.length) '0' ++ s

/-- Python `'{:+.6f}'.format(q)`: explicit sign, integer part, point, six
fractional digits. -/
def ratFixed6 (q : ℚ) : List Char :=
  (if q < 0 then ['-'] else ['+']) ++
    natToChars ((rnd6 q).natAbs / 1000000) ++
      '.' :: padZeros6 (natToChars ((rnd6 q).natAbs % 1000000))

/-- Python `'{:<w}'` left-justification: pad on the right with spaces up to
width `w` (no truncation). -/
def padRight (s : List Char) (w : Nat) : List Char :=
  s ++ List.replicate (w - s.length) ' '

/-! ## Round-trip lemmas for the numeric formats -/

theorem natToCharsFuel_congr :
    ∀ (n f₁ f₂ : Nat), n < f₁ → n < f₂ →
      natToCharsFuel f₁ n = natToCharsFuel f₂ n := by
  intro n
  induction n using Nat.strong_induction_on with
  | _ n ih =>
    intro f₁ f₂ h₁ h₂
    match f₁, f₂ with
    | g₁ + 1, g₂ + 1 =>
      rw [natToCharsFuel, natToCharsFuel]
      by_cases hn : n < 10
      · rw [if_pos hn, if_pos hn]
      · rw [if_neg hn, if_neg hn]
        have hlt : n / 10 < n := Nat.div_lt_self (by omega) (by omega)
        rw [ih _ hlt g₁ g₂ (by omega) (by omega)]

/-- The defining equation of `natToChars`. -/
theorem natToChars_eq (n : Nat) :
    natToChars n = if n < 10 then [digitChar n]
      else natToChars (n / 10) ++ [digitChar (n % 10)] := by
  rw [natToChars, natToCharsFuel]
  by_cases hn : n < 10
  · rw [if_pos hn, if_pos hn]
  · rw [if_neg hn, if_neg hn, natToChars]
    have hlt : n / 10 < n := Nat.div_lt_self (by omega) (by omega)
    rw [natToCharsFuel_congr (n / 10) n (n / 10 + 1) (by omega) (by omega)]

theorem digitChar_toNat {n : Nat} (h : n < 10) : (digitChar n).toNat = 48 + n := by
  interval_cases n <;> rfl

theorem charVal_digitChar {n : Nat} (h : n < 10) : charVal (digitChar n) = n := by
  simp [charVal, digitChar_toNat h]

theorem isDigit_digitChar {n : Nat} (h : n < 10) : (digitChar n).isDigit = true := by
  interval_cases n <;> rfl

theorem natToChars_all_digits (n : Nat) : (natToChars n).all Char.isDigit = true := by
  induction n using Nat.strong_induction_on with
  | _ n ih =>
    rw [natToChars_eq]
    split
    · rename_i h
      simp [isDigit_digitChar h]
    · rename_i h
      have h10 : n / 10 < n := Nat.div_lt_self (by omega) (by omega)
      simp [List.all_append, ih _ h10, isDigit_digitChar (Nat.mod_lt n (by omega))]

theorem natToChars_ne_nil (n : Nat) : natToChars n ≠ [] := by
  rw [natToChars_eq]; split <;> simp

theorem digitsVal_foldl (s : List Char) (a : Nat) :
    s.foldl (fun a c => a * 10 + charVal c) a = a * 10 ^ s.length + digitsVal s := by
  induction s generalizing a with
  | nil => simp [digitsVal]
  | cons c cs ih =>
    simp only [List.foldl_cons, digitsVal] at *
    rw [ih, ih (0 * 10 + charVal c)]
    simp [List.length_cons, pow_succ]
    ring

theorem digitsVal_append (s t : List Char) :
    digitsVal (s ++ t) = digitsVal s * 10 ^ t.length + digitsVal t := by
  have h : digitsVal (s ++ t) = t.foldl (fun a c => a * 10 + charVal c) (digitsVal s) := by
    simp [digitsVal, List.foldl_append]
  rw [h, digitsVal_foldl]

theorem digitsVal_natToChars (n : Nat) : digitsVal (natToChars n) = n := by
  induction n using Nat.strong_induction_on with
  | _ n ih =>
    rw [natToChars_eq]
    split
    · rename_i h
      simp [digitsVal, charVal_digitChar h]
    · rename_i h
      have h10 : n / 10 < n := Nat.div_lt_self (by omega) (by omega)
      rw [digitsVal_append, ih _ h10]
      simp [digitsVal, charVal_digitChar (Nat.mod_lt n (by omega))]
      omega

theorem digitsToNat?_natToChars (n : Nat) :
    digitsToNat? (natToChars n) = some n := by
  simp [digitsToNat?, natToChars_ne_nil, natToChars_all_digits, digitsVal_natToChars]

theorem head?_natToChars_isDigit (n : Nat) :
    ∃ c cs, natToChars n = c :: cs ∧ c.isDigit = true := by
  have hne := natToChars_ne_nil n
  have hall := natToChars_all_digits n
  rcases hh : natToChars n with _ | ⟨c, cs⟩
  · exact absurd hh hne
  · rw [hh] at hall
    simp only [List.all_cons, Bool.and_eq_true] at hall
    exact ⟨c, cs, rfl, hall.1⟩

/-- `str(int)` → `int(...)` round trip. -/
theorem pyInt_intToChars (n : Int) : pyInt (intToChars n) = some n := by
  by_cases h : n < 0
  · rw [intToChars, if_pos h]
    have h1 : pyInt ('-' :: natToChars n.natAbs)
        = some (-(digitsVal (natToChars n.natAbs) : Int)) := by
      simp [pyInt, digitsToNat?, natToChars_ne_nil, natToChars_all_digits]
    rw [h1, digitsVal_natToChars]
    congr 1
    omega
  · rw [intToChars, if_neg h]
    obtain ⟨c, cs, hh, hc⟩ := head?_natToChars_isDigit n.natAbs
    have hc1 : c ≠ '+' := by rintro rfl; simp [Char.isDigit] at hc
    have hc2 : c ≠ '-' := by rintro rfl; simp [Char.isDigit] at hc
    have h1 : pyInt (natToChars n.natAbs) = some ((n.natAbs : Int)) := by
      rw [pyInt, hh]
      simp only [List.head?_cons]
      rw [if_neg (by simpa using hc1), if_neg (by simpa using hc2), ← hh,
        digitsToNat?_natToChars]
      simp
    rw [h1]
    congr 1
    omega

theorem natToChars_length_le {n k : Nat} (hk : 1 ≤ k) (h : n < 10 ^ k) :
    (natToChars n).length ≤ k := by
  induction n using Nat.strong_induction_on generalizing k with
  | _ n ih =>
    rw [natToChars_eq]
    split
    · simpa using hk
    · rename_i hn
      have h10 : n / 10 < n := Nat.div_lt_self (by omega) (by omega)
      have hk2 : 2 ≤ k := by
        rcases Nat.lt_or_ge k 2 with hlt | hge
        · have hk1 : k = 1 := by omega
          subst hk1
          rw [pow_one] at h
          omega
        · exact hge
      have hdiv : n / 10 < 10 ^ (k - 1) := by
        have : 10 ^ k = 10 ^ (k - 1) * 10 := by
          rw [← pow_succ]
          congr 1
          omega
        rw [this] at h
        omega
      have := ih _ h10 (k := k - 1) (by omega) hdiv
      simp only [List.length_append, List.length_cons, List.length_nil]
      omega

theorem padZeros6_all_digits {s : List Char} (h : s.all Char.isDigit = true) :
    (padZeros6 s).all Char.isDigit = true := by
  simp only [padZeros6, List.all_append, h, Bool.and_true]
  induction (6 - s.length) with
  | zero => rfl
  | succ k ih => simpa [List.replicate_succ] using ih

theorem digitsVal_padZeros6 (s : List Char) :
    digitsVal (padZeros6 s) = digitsVal s := by
  simp only [padZeros6]
  induction (6 - s.length) with
  | zero => simp
  | succ k ih =>
    rw [List.replicate_succ, List.cons_append]
    simp only [digitsVal, List.foldl_cons] at *
    simpa [charVal] using ih

theorem padZeros6_length {s : List Char} (h : s.length ≤ 6) :
    (padZeros6 s).length = 6 := by
  simp [padZeros6]
  omega

theorem padZeros6_ne_nil (s : List Char) : padZeros6 s ≠ [] := by
  intro hcon
  have h2 := congrArg List.length hcon
  rw [padZeros6] at h2
  simp only [List.length_append, List.length_replicate, List.length_nil] at h2
  omega

theorem takeWhile_append_stop (p : Char → Bool) (l1 : List Char) (c : Char)
    (l2 : List Char) (h1 : l1.all p = true) (hc : p c = false) :
    (l1 ++ c :: l2).takeWhile p = l1 ∧ (l1 ++ c :: l2).dropWhile p = c :: l2 := by
  induction l1 with
  | nil => simp [List.takeWhile, List.dropWhile, hc]
  | cons a as ih =>
    simp only [List.all_cons, Bool.and_eq_true] at h1
    have := ih h1.2
    simp [List.takeWhile, List.dropWhile, h1.1, this.1, this.2]

theorem takeWhile_all (p : Char → Bool) (l : List Char) (h : l.all p = true) :
    l.takeWhile p = l ∧ l.dropWhile p = [] := by
  induction l with
  | nil => simp
  | cons a as ih =>
    simp only [List.all_cons, Bool.and_eq_true] at h
    have := ih h.2
    simp [List.takeWhile, List.dropWhile, h.1, this.1, this.2]

theorem pyFloatUnsigned_digits_point (ipart fpart : List Char)
    (hip : ipart.all Char.isDigit = true) (hipne : ipart ≠ [])
    (hfp : fpart.all Char.isDigit = true) :
    pyFloatUnsigned (ipart ++ '.' :: fpart)
      = some (mkRat (digitsVal ipart * 10 ^ fpart.length + digitsVal fpart)
          (10 ^ fpart.length)) := by
  obtain ⟨ht, hd⟩ := takeWhile_append_stop Char.isDigit ipart '.' fpart hip (by rfl)
  rw [pyFloatUnsigned]
  simp only [ht, hd]
  rw [if_neg (by simp), if_pos (by simp [hfp, hipne])]
  simp

theorem pyFloatUnsigned_digits_point' (ipart fpart : List Char)
    (hip : ipart.all Char.isDigit = true) (hipne : ipart ≠ [])
    (hfp : fpart.all Char.isDigit = true) :
    pyFloatUnsigned (ipart ++ '.' :: fpart)
      = some ((digitsVal ipart : ℚ) + (digitsVal fpart : ℚ) / (10 : ℚ) ^ fpart.length) := by
  rw [pyFloatUnsigned_digits_point ipart fpart hip hipne hfp]
  congr 1
  rw [Rat.mkRat_eq_div]
  have h0 : ((10 : ℚ) ^ fpart.length) ≠ 0 := by positivity
  push_cast
  field_simp

theorem pyFloat_neg_cons (s : List Char) :
    pyFloat ('-' :: s) = (pyFloatUnsigned s).map (fun q => -q) := by
  rw [pyFloat]
  simp

theorem pyFloat_pos_cons (s : List Char) :
    pyFloat ('+' :: s) = pyFloatUnsigned s := by
  rw [pyFloat]
  simp

/-- `'{:+.6f}'` → `float(...)` round trip: parsing the fixed-point text of
`q` yields exactly `q` rounded to six decimal places. -/
theorem pyFloat_ratFixed6 (q : ℚ) : pyFloat (ratFixed6 q) = some (rat6 q) := by
  have hfp6 : (natToChars ((rnd6 q).natAbs % 1000000)).length ≤ 6 :=
    natToChars_length_le (k := 6) (by norm_num) (by
      have : (rnd6 q).natAbs % 1000000 < 1000000 := Nat.mod_lt _ (by omega)
      simpa using this)
  have hunsigned : pyFloatUnsigned
      (natToChars ((rnd6 q).natAbs / 1000000) ++
        '.' :: padZeros6 (natToChars ((rnd6 q).natAbs % 1000000)))
      = some (((rnd6 q).natAbs : ℚ) / 1000000) := by
    rw [pyFloatUnsigned_digits_point' _ _ (natToChars_all_digits _) (natToChars_ne_nil _)
      (padZeros6_all_digits (natToChars_all_digits _))]
    congr 1
    rw [digitsVal_padZeros6, digitsVal_natToChars, digitsVal_natToChars,
      padZeros6_length hfp6]
    have h' := Nat.div_add_mod (rnd6 q).natAbs 1000000
    have h'' : (((1000000 * ((rnd6 q).natAbs / 1000000) + (rnd6 q).natAbs % 1000000 : Nat)) : ℚ)
        = ((rnd6 q).natAbs : ℚ) := by
      exact_mod_cast congrArg (fun n : Nat => (n : ℚ)) h'
    push_cast at h''
    have h10 : ((10 : ℚ) ^ 6) = 1000000 := by norm_num
    rw [h10]
    field_simp
    linarith
  by_cases hq : q < 0
  · have hm0 : rnd6 q ≤ 0 := by
      rw [rnd6, round_eq]
      have h1 : q * 1000000 + 1 / 2 < 1 := by nlinarith
      have h2 := Int.floor_lt.mpr
        (show q * 1000000 + 1 / 2 < ((1 : Int) : ℚ) by exact_mod_cast h1)
      omega
    rw [ratFixed6, if_pos hq, List.singleton_append, List.cons_append, pyFloat_neg_cons, hunsigned]
    have hcast : (((rnd6 q).natAbs : ℚ)) = -((rnd6 q : ℚ)) := by
      rw [Int.cast_natAbs, abs_of_nonpos hm0, Int.cast_neg]
    rw [hcast, rat6]
    show Option.map (fun q => -q) (some (-((rnd6 q : ℚ)) / 1000000)) = _
    rw [Option.map]
    congr 1
    ring
  · have hm0 : 0 ≤ rnd6 q := by
      rw [rnd6, round_eq]
      have h1 : (0 : ℚ) ≤ q * 1000000 + 1 / 2 := by nlinarith [le_of_not_gt hq]
      exact Int.floor_nonneg.mpr h1
    rw [ratFixed6, if_neg hq, List.singleton_append, List.cons_append, pyFloat_pos_cons, hunsigned]
    have hcast : (((rnd6 q).natAbs : ℚ)) = ((rnd6 q : ℚ)) := by
      rw [Int.cast_natAbs, abs_of_nonneg hm0]
    rw [hcast, rat6]

theorem length_dropWhile_le' (p : Char → Bool) (l : List Char) :
    (l.dropWhile p).length ≤ l.length := by
  induction l with
  | nil => simp
  | cons a as ih =>
    rw [List.dropWhile]
    split
    · simp only [List.length_cons]
      omega
    · simp

/-! ## Tool record model (`DEFAULT_TOOL`, `NO_TOOL`, `ALL_COLUMNS`)

The Python tool record is a dict from column identifier to value; here it
is a structure with one field per key of `DEFAULT_TOOL`. -/

structure Tool where
  T : Int
  P : Int
  Q : Int
  X : ℚ
  Y : ℚ
  Z : ℚ
  A : ℚ
  B : ℚ
  C : ℚ
  U : ℚ
  V : ℚ
  W : ℚ
  D : ℚ
  I : ℚ
  J : ℚ
  R : List Char
  STL : List Char
  COLOR : List Char
deriving DecidableEq, Repr

/-- `DEFAULT_TOOL` of `tool_table.py` (the db variant's copy omits the
`STL`/`COLOR` keys; both agree on every shared key). -/
def DEFAULT_TOOL : Tool :=
  { T := -1, P := 0, Q := 1,
    X := 0, Y := 0, Z := 0, A := 0, B := 0, C := 0,
    U := 0, V := 0, W := 0, D := 0, I := 0, J := 0,
    R := [], STL := [], COLOR := [] }

/-- `NO_TOOL = merge(DEFAULT_TOOL, {'T': 0, 'R': 'No Tool Loaded'})`. -/
def NO_TOOL : Tool := { DEFAULT_TOOL with T := 0, R := "No Tool Loaded".toList }

/-- `ALL_COLUMNS` (a tuple of strings in the source). -/
def ALL_COLUMNS : List (List Char) :=
  ["T", "P", "X", "Y", "Z", "A", "B", "C", "U", "V", "W", "D", "I", "J",
   "Q", "R", "STL", "COLOR"].map String.toList

/-- `descriptor in ALL_COLUMNS` for the one-character descriptor produced
by the row tokenizer (the multi-character entries `STL`/`COLOR` can never
equal a one-character string). -/
def isKnownDesc (c : Char) : Bool := ALL_COLUMNS.contains [c]

/-- A heterogeneous tool-record value (int, float or string), as stored in
the Python dict. -/
inductive Value
  | i (n : Int)
  | f (q : ℚ)
  | s (cs : List Char)
deriving DecidableEq, Repr

/-- `tool.get(key)` for a one-character key: the single-letter dict keys of
a tool record.  (`STL` and `COLOR` are multi-character keys, so no
one-character key reaches them; `.get` returns `None` for an unknown key.) -/
def toolGet (t : Tool) (key : Char) : Option Value :=
  if key = 'T' then some (Value.i t.T)
  else if key = 'P' then some (Value.i t.P)
  else if key = 'Q' then some (Value.i t.Q)
  else if key = 'X' then some (Value.f t.X)
  else if key = 'Y' then some (Value.f t.Y)
  else if key = 'Z' then some (Value.f t.Z)
  else if key = 'A' then some (Value.f t.A)
  else if key = 'B' then some (Value.f t.B)
  else if key = 'C' then some (Value.f t.C)
  else if key = 'U' then some (Value.f t.U)
  else if key = 'V' then some (Value.f t.V)
  else if key = 'W' then some (Value.f t.W)
  else if key = 'D' then some (Value.f t.D)
  else if key = 'I' then some (Value.f t.I)
  else if key = 'J' then some (Value.f t.J)
  else if key = 'R' then some (Value.s t.R)
  else none

/-- `tool[descriptor] = int(value)` for the integer columns (only `T`, `P`
and `Q` are reachable: the branch is guarded by `descriptor in ('T','P','Q')`). -/
def setColInt (t : Tool) (c : Char) (n : Int) : Tool :=
  if c = 'T' then { t with T := n }
  else if c = 'P' then { t with P := n }
  else if c = 'Q' then { t with Q := n }
  else t

/-- `tool[descriptor] = float(value)` for the float branch.  The reachable
descriptors are the known columns other than `T`/`P`/`Q`; a float written
to `R` is modelled as a no-op because the loop is followed unconditionally
by `tool['R'] = comment.strip()`, which overwrites it before the record is
ever read (the success/failure of the coercion still decides the `break`). -/
def setColFloat (t : Tool) (c : Char) (q : ℚ) : Tool :=
  if c = 'X' then { t with X := q }
  else if c = 'Y' then { t with Y := q }
  else if c = 'Z' then { t with Z := q }
  else if c = 'A' then { t with A := q }
  else if c = 'B' then { t with B := q }
  else if c = 'C' then { t with C := q }
  else if c = 'U' then { t with U := q }
  else if c = 'V' then { t with V := q }
  else if c = 'W' then { t with W := q }
  else if c = 'D' then { t with D := q }
  else if c = 'I' then { t with I := q }
  else if c = 'J' then { t with J := q }
  else t

/-! ## Row tokenizer (`re.findall(r"([A-Z]+[0-9.+-]+)", data.replace(' ', ''))`) -/

def isUpperAZ (c : Char) : Bool := 'A' ≤ c && c ≤ 'Z'

def isValChar (c : Char) : Bool := c.isDigit || c = '.' || c = '+' || c = '-'

/-- Left-to-right non-overlapping scan for `[A-Z]+[0-9.+-]+`: at an upper
letter take the maximal letter run, then the maximal value-character run;
a match needs the value run to be non-empty (backtracking inside the letter
run cannot succeed because a letter is never a value character). -/
def findTokensFuel : Nat → List Char → List (List Char)
  | 0, _ => []
  | _, [] => []
  | fuel + 1, c :: rest =>
      if isUpperAZ c then
        let letters := c :: rest.takeWhile isUpperAZ
        let afterL := rest.dropWhile isUpperAZ
        let val := afterL.takeWhile isValChar
        if val = [] then findTokensFuel fuel afterL
        else (letters ++ val) :: findTokensFuel fuel (afterL.dropWhile isValChar)
      else findTokensFuel fuel rest

def findTokens (l : List Char) : List (List Char) := findTokensFuel (l.length + 1) l

/-- Character class of the model-path pattern `r"\[([.*?]+)]"` — a literal
character class `[.*?]` in the source, not a wildcard group. -/
def isModelChar (c : Char) : Bool := c = '.' || c = '*' || c = '?'

/-- Character class of the color pattern `r"\[([#A-F0-9_]+)]"`. -/
def isColorChar (c : Char) : Bool := c = '#' || ('A' ≤ c && c ≤ 'F') || c.isDigit || c = '_'

/-- Left-to-right non-overlapping scan for `\[([cls]+)]`: at `[` take the
maximal class run; a match needs the run non-empty and a closing `]`
(backtracking inside the run cannot succeed because `]` is not in either
class), otherwise the scan advances one character. -/
def findBracketsFuel (cls : Char → Bool) : Nat → List Char → List (List Char)
  | 0, _ => []
  | _, [] => []
  | fuel + 1, c :: rest =>
      if c = '[' then
        let run := rest.takeWhile cls
        match rest.dropWhile cls with
        | ']' :: tl =>
            if run = [] then findBracketsFuel cls fuel rest
            else run :: findBracketsFuel cls fuel tl
        | _ => findBracketsFuel cls fuel rest
      else findBracketsFuel cls fuel rest

def findBrackets (cls : Char → Bool) (l : List Char) : List (List Char) :=
  findBracketsFuel cls (l.length + 1) l

/-! ## Row parser (`loadToolTable` body) -/

/-- The two coercion-failure messages, both issued via `LOG.error(...)`
(error severity). -/
inductive LogEvent
  | errInt (value : List Char)
  | errFloat (value : List Char)
deriving DecidableEq, Repr

/-- The per-item loop of `loadToolTable`: apply `<descriptor><value>` items
to the tool record; a failed coercion logs and `break`s (abandoning the
remaining items of the row). -/
def applyItems (tool : Tool) : List (List Char) → Tool × List LogEvent
  | [] => (tool, [])
  | item :: rest =>
      match item with
      | [] => applyItems tool rest
      | descriptor :: value =>
          if isKnownDesc descriptor then
            if descriptor = 'T' ∨ descriptor = 'P' ∨ descriptor = 'Q' then
              match pyInt value with
              | some n => applyItems (setColInt tool descriptor n) rest
              | none => (tool, [LogEvent.errInt value])
            else
              match pyFloat value with
              | some q => applyItems (setColFloat tool descriptor q) rest
              | none => (tool, [LogEvent.errFloat value])
          else applyItems tool rest

structure ParsedLine where
  tool : Tool
  tool_model : List (List Char)
  path_color : List (List Char)
  logs : List LogEvent
deriving DecidableEq, Repr

/-- Parse one (already stripped) row of the tool-table file: split on the
first `;` into data and comment, run the two bracket-metadata scans over
the comment (their results are only `print`ed by the source and never
stored in the record), tokenize the space-stripped data, fold the items
over `DEFAULT_TOOL`, then set `R` to the stripped comment. -/
def parseLine (line : List Char) : ParsedLine :=
  let p := pyPartition ';' line
  let tool_model := findBrackets isModelChar (pyLower p.2)
  let path_color := findBrackets isColorChar (pyUpper p.2)
  let items := findTokens (removeSpaces p.1)
  let r := applyItems DEFAULT_TOOL items
  { tool := { r.1 with R := pyStrip p.2 },
    tool_model := tool_model, path_color := path_color, logs := r.2 }

/-! ## Tool table (Python dict keyed by tool number) -/

abbrev ToolTable := List (Int × Tool)

/-- Python dict assignment `tbl[k] = v`: overwrite in place if the key is
present, else append (insertion order preserved). -/
def tableSet (tbl : ToolTable) (k : Int) (v : Tool) : ToolTable :=
  if (tbl.lookup k).isSome then tbl.map (fun p => if p.1 = k then (k, v) else p)
  else tbl ++ [(k, v)]

def tableKeys (tbl : ToolTable) : List Int := tbl.map Prod.fst

/-- The per-line accumulation step of `loadToolTable`: rows whose resolved
tool number is still `-1` are skipped, all others are written to the table
under their tool number. -/
def stepLine (acc : ToolTable × List LogEvent) (line : List Char) :
    ToolTable × List LogEvent :=
  let pl := parseLine line
  (if pl.tool.T = -1 then acc.1 else tableSet acc.1 pl.tool.T pl.tool,
   acc.2 ++ pl.logs)

/-- The row loop of `loadToolTable`, starting from `{0: NO_TOOL}`. -/
def loadRows (rows : List (List Char)) : ToolTable × List LogEvent :=
  rows.foldl stepLine ([(0, NO_TOOL)], [])

/-- `line.startswith(';')`. -/
def startsSemi (l : List Char) : Bool := l.head? = some ';'

/-- Index of the last line starting with `;` (the source scans
`reversed(lines)` and stops at the first hit). -/
def lastSemiIdx : List (List Char) → Option Nat
  | [] => none
  | l :: rest =>
      match lastSemiIdx rest with
      | some i => some (i + 1)
      | none => if startsSemi l then some 0 else none

/-- The `takewhile` predicate on header lines: stop at a line that strips
to `---` or that starts with `;Tool`. -/
def keepHeaderLine (l : List Char) : Bool :=
  decide (pyStrip l ≠ "---".toList) && !(List.isPrefixOf ";Tool".toList l)

structure LoadResult where
  table : ToolTable
  origHeader : List (List Char)
  logs : List LogEvent
deriving DecidableEq, Repr

/-- `loadToolTable` on the stripped lines of the file.  `prevHeader` is the
current `self.orig_header_lines`, which is left unchanged when no line
starts with `;`. -/
def loadToolTableLines (prevHeader : List (List Char))
    (rawLines : List (List Char)) : LoadResult :=
  let lines := rawLines.map pyStrip
  match lastSemiIdx lines with
  | some i =>
      let r := loadRows (lines.drop (i + 1))
      { table := r.1,
        origHeader := (lines.take (i + 1)).takeWhile keepHeaderLine,
        logs := r.2 }
  | none =>
      let r := loadRows lines
      { table := r.1, origHeader := prevHeader, logs := r.2 }

/-- Python `fh.readlines()` on a text (each returned line loses its
trailing newline only under the `.strip()` applied by the caller, so here
lines are returned without the separator and an unterminated final line is
kept; an empty text has no lines). -/
def splitLines (text : List Char) : List (List Char) :=
  if text = [] then []
  else
    let parts := text.splitOn '\n'
    if parts.getLast? = some [] then parts.dropLast else parts

/-- `loadToolTable` from the file text. -/
def loadToolTableText (prevHeader : List (List Char)) (text : List Char) :
    LoadResult :=
  loadToolTableLines prevHeader (splitLines text)

/-! ## Encoder (`saveToolTable`)

The multi-character extension columns `STL`/`COLOR` are not representable
here: their values are strings, and the source's float branch
(`'{col}{val:<+12.6f}'`) raises a `ValueError` when formatting a string,
so `saveToolTable` cannot complete for a selection containing them.  The
encoder is therefore embedded over single-letter column selections. -/

def INT_COLUMN_WIDTH : Nat := 6
def FLOAT_COLUMN_WIDTH : Nat := 12

/-- `COLUMN_LABELS` for the single-letter columns. -/
def COLUMN_LABELS (c : Char) : List Char :=
  if c = 'A' then "A Offset".toList
  else if c = 'B' then "B Offset".toList
  else if c = 'C' then "C Offset".toList
  else if c = 'D' then "Diameter".toList
  else if c = 'I' then "Fnt Ang".toList
  else if c = 'J' then "Bak Ang".toList
  else if c = 'P' then "Pocket".toList
  else if c = 'Q' then "Orient".toList
  else if c = 'R' then "Remark".toList
  else if c = 'T' then "Tool".toList
  else if c = 'U' then "U Offset".toList
  else if c = 'V' then "V Offset".toList
  else if c = 'W' then "W Offset".toList
  else if c = 'X' then "X Offset".toList
  else if c = 'Y' then "Y Offset".toList
  else if c = 'Z' then "Z Offset".toList
  else []

/-- `col in 'TPQ'` for a single-letter column. -/
def isIntCol (c : Char) : Bool := c = 'T' || c = 'P' || c = 'Q'

/-- The integer value of an integer column of a record. -/
def getColI (t : Tool) (c : Char) : Int :=
  if c = 'T' then t.T else if c = 'P' then t.P else if c = 'Q' then t.Q else 0

/-- The float value of a float column of a record. -/
def getColF (t : Tool) (c : Char) : ℚ :=
  if c = 'X' then t.X
  else if c = 'Y' then t.Y
  else if c = 'Z' then t.Z
  else if c = 'A' then t.A
  else if c = 'B' then t.B
  else if c = 'C' then t.C
  else if c = 'U' then t.U
  else if c = 'V' then t.V
  else if c = 'W' then t.W
  else if c = 'D' then t.D
  else if c = 'I' then t.I
  else if c = 'J' then t.J
  else 0

/-- One `'{col}{val:<6}'` / `'{col}{val:<+12.6f}'` item of a data row. -/
def formatTok (t : Tool) (c : Char) : List Char :=
  if isIntCol c then c :: padRight (intToChars (getColI t c)) INT_COLUMN_WIDTH
  else c :: padRight (ratFixed6 (getColF t c)) FLOAT_COLUMN_WIDTH

/-- `''.join(items)` for one tool: every selected column except `R`,
followed by `'; ' + remark` when the remark is non-empty. -/
def rowLine (cols : List Char) (t : Tool) : List Char :=
  (cols.filterMap (fun c => if c = 'R' then none else some (formatTok t c))).flatten
    ++ (if t.R ≠ [] then ';' :: ' ' :: t.R else [])

/-- Python `' '.join(...)`. -/
def joinSpace : List (List Char) → List Char
  | [] => []
  | [x] => x
  | x :: y :: rest => x ++ ' ' :: joinSpace (y :: rest)

/-- The column-label title row: `';' + ' '.join(items)`, each label
left-justified to its column width, one character narrower when the column
is the first of the *configured* columns (`self.columns[0]`), with a
trailing `Remark`. -/
def titleLine (cols selfCols : List Char) : List Char :=
  ';' :: joinSpace
    ((cols.filterMap (fun c =>
        if c = 'R' then none
        else some (padRight (COLUMN_LABELS c)
          ((if isIntCol c then INT_COLUMN_WIDTH else FLOAT_COLUMN_WIDTH)
            - (if selfCols.head? = some c then 1 else 0))))) ++ ["Remark".toList])

def sortedKeys (tbl : ToolTable) : List Int :=
  List.insertionSort (· ≤ ·) (tableKeys tbl)

/-- The header block restored by `saveToolTable`: the original header
lines, spliced with the tail of the formatted template from its `'---'`
separator when both are present.  `templateLines` stands for the already
formatted and split `file_header_template`; an empty list models the
absent template. -/
def saveHeaderLines (origHeader templateLines : List (List Char)) :
    List (List Char) :=
  let header1 := if templateLines ≠ [] then templateLines ++ [[]] else []
  if origHeader ≠ [] then
    match header1.findIdx? (fun l => l = "---".toList) with
    | some j => origHeader ++ header1.drop j
    | none => origHeader
  else header1

/-- The lines written by `saveToolTable`: the restored header, the title
row, then one row per tool number in ascending order with the first
(smallest) key skipped. -/
def saveToolTableLines (origHeader templateLines : List (List Char))
    (tbl : ToolTable) (cols selfCols : List Char) : List (List Char) :=
  saveHeaderLines origHeader templateLines ++ titleLine cols selfCols ::
    ((sortedKeys tbl).drop 1).filterMap
      (fun k => (tbl.lookup k).map (fun t => rowLine cols t))

/-- `'\n'.join(lines)` followed by the final `fh.write('\n')`. -/
def joinLines (ls : List (List Char)) : List Char :=
  List.intercalate ['\n'] ls ++ ['\n']

/-- The file text written by `saveToolTable`. -/
def saveToolTableText (origHeader templateLines : List (List Char))
    (tbl : ToolTable) (cols selfCols : List Char) : List Char :=
  joinLines (saveToolTableLines origHeader templateLines tbl cols selfCols)

/-! ## The write / flush / fsync / reload sequence of `saveToolTable` -/

inductive SaveEvent
  | writeData
  | flushData
  | fsyncData
  | cmdLoadToolTable
deriving DecidableEq, Repr

/-- The tail of `saveToolTable`: inside the `with` block the file is
written, flushed and fsynced in order; an exception at any of the three
steps propagates out of the `with` block, skipping everything after the
failing step; `CMD.load_tool_table()` runs after the block only on the
success path.  Each flag tells whether the corresponding operation
succeeds; the result is the performed events and whether the save
completed (`false` = the error propagated to the caller). -/
def writeAndReload (writeOk flushOk fsyncOk : Bool) : List SaveEvent × Bool :=
  if !writeOk then ([], false)
  else if !flushOk then ([SaveEvent.writeData], false)
  else if !fsyncOk then ([SaveEvent.writeData, SaveEvent.flushData], false)
  else ([SaveEvent.writeData, SaveEvent.flushData, SaveEvent.fsyncData,
         SaveEvent.cmdLoadToolTable], true)

/-! ## `current_tool` (file and db variants share this logic) -/

inductive ToolError
  | UnknownToolError
  | IndexError
deriving DecidableEq, Repr

inductive CurrentToolResult
  | record (t : Tool)
  | field (v : Option Value)
deriving DecidableEq, Repr

/-- `current_tool(item=None)`: `TOOL_TABLE[tool_in_spindle]` (a missing
key raises — the spec's `UnknownToolError`), returning the whole record
with no item, else `record.get(item[0].upper())` (an empty item string
raises `IndexError` at `item[0]`). -/
def current_tool (table : ToolTable) (tool_in_spindle : Int)
    (item : Option (List Char)) : Except ToolError CurrentToolResult :=
  match table.lookup tool_in_spindle with
  | none => Except.error ToolError.UnknownToolError
  | some t =>
      match item with
      | none => Except.ok (CurrentToolResult.record t)
      | some key =>
          match key.head? with
          | none => Except.error ToolError.IndexError
          | some c => Except.ok (CurrentToolResult.field (toolGet t c.toUpper))

/-! ## `validateColumns` (file and db variants) -/

/-- The runtime type of the `columns` argument.  String/list/tuple inputs
carry their elements (list and tuple elements are taken to be strings:
a non-string element raises `AttributeError` at `col.strip()` in both
variants); every other type is `other`. -/
inductive ColumnsArg
  | str (s : List Char)
  | list (xs : List (List Char))
  | tuple (xs : List (List Char))
  | other

/-- Iteration over the argument: a string yields its characters as
one-character strings; list and tuple yield their elements; anything else
fails the `isinstance` check. -/
def columnsElems : ColumnsArg → Option (List (List Char))
  | ColumnsArg.str s => some (s.map (fun c => [c]))
  | ColumnsArg.list xs => some xs
  | ColumnsArg.tuple xs => some xs
  | ColumnsArg.other => none

/-- `ToolTable.validateColumns` of `tool_table.py`: strip and upper-case
every element, keep those that are members of the `ALL_COLUMNS` tuple and
non-empty; `None` for a non-str/list/tuple argument. -/
def validateColumns (columns : ColumnsArg) : Option (List (List Char)) :=
  (columnsElems columns).map (fun elems =>
    (elems.map (fun col => pyUpper (pyStrip col))).filter
      (fun col => ALL_COLUMNS.contains col && !col.isEmpty))

/-- `DBToolTable.validateColumns` of `db_tool_table.py`: identical except
the membership test is `col in 'TPXYZABCUVWDIJQR'` — Python *substring*
membership in a string, not membership in a tuple. -/
def db_validateColumns (columns : ColumnsArg) : Option (List (List Char)) :=
  (columnsElems columns).map (fun elems =>
    (elems.map (fun col => pyUpper (pyStrip col))).filter
      (fun col => decide (col <:+: "TPXYZABCUVWDIJQR".toList) && !col.isEmpty))

/-! ## Database variant (`db_tool_table.py`) -/

/-- A persisted relational tool row (`qtpyvcp.lib.db_tool.tool_table.Tool`). -/
structure DbTool where
  tool_no : Int
  pocket : Int
  remark : List Char
  x_offset : ℚ
  y_offset : ℚ
  z_offset : ℚ
  a_offset : ℚ
  b_offset : ℚ
  c_offset : ℚ
  u_offset : ℚ
  v_offset : ℚ
  w_offset : ℚ
  diameter : ℚ
  in_use : Bool
deriving DecidableEq, Repr

/-- The record dict built by `DBToolTable.loadToolTable` for one row (note
the source maps the `C` key to `tool.b_offset`, and fixes `I`/`J` to `0.0`
and `Q` to `1`; the db record dict has no `STL`/`COLOR` keys). -/
def dbRowRecord (tool : DbTool) : Tool :=
  { T := tool.tool_no, P := tool.pocket, Q := 1,
    X := tool.x_offset, Y := tool.y_offset, Z := tool.z_offset,
    A := tool.a_offset, B := tool.b_offset, C := tool.b_offset,
    U := tool.u_offset, V := tool.v_offset, W := tool.w_offset,
    D := tool.diameter, I := 0, J := 0,
    R := tool.remark, STL := [], COLOR := [] }

/-- `DBToolTable.loadToolTable`: `self.table[tool.tool_no] = {...}` for
every queried row — the existing `self.table` dict is updated in place,
entry by entry, and is never cleared or replaced. -/
def db_loadToolTable (prev : ToolTable) (rows : List DbTool) : ToolTable :=
  rows.foldl (fun tbl tool => tableSet tbl tool.tool_no (dbRowRecord tool)) prev

inductive DbEvent
  | insertRow (t : Tool)
  | updateRow (t : Tool)
  | deleteRow (tno : Int)
  | commit
deriving DecidableEq, Repr

/-- Keys of `desired` absent from `persisted` (DeepDiff
`dictionary_item_added` at the root level, carrying the new record `t2`). -/
def diffInserted (persisted desired : ToolTable) : ToolTable :=
  desired.filter (fun p => (persisted.lookup p.1).isNone)

/-- Keys present in both tables whose records differ (DeepDiff
`values_changed`; the source reads the parent node's `t2`, i.e. the full
new record — one entry per changed leaf, collapsed here to one per key). -/
def diffUpdated (persisted desired : ToolTable) : ToolTable :=
  desired.filter (fun p =>
    match persisted.lookup p.1 with
    | some old => decide (old ≠ p.2)
    | none => false)

/-- Keys of `persisted` absent from `desired` (DeepDiff
`dictionary_item_removed`, carrying the old record `t1`). -/
def diffDeleted (persisted desired : ToolTable) : ToolTable :=
  persisted.filter (fun p => (desired.lookup p.1).isNone)

/-- `DBToolTable.saveToolTable`: insert rows first (one `session.commit()`
each), then updates (one commit each) — the update loop *rebinds* the
`tool_data` variable from the query object to the fetched row — then the
delete block calls `tool_data.filter(...)`.  When at least one update ran,
`tool_data` is a row object with no `.filter`, so the first delete raises
`AttributeError` (result flag `false`) with no delete performed; with no
updates the deletes run (one commit each). -/
def db_saveToolTable (persisted desired : ToolTable) : List DbEvent × Bool :=
  let ins := diffInserted persisted desired
  let upd := diffUpdated persisted desired
  let del := diffDeleted persisted desired
  let evs := (ins.map (fun p => [DbEvent.insertRow p.2, DbEvent.commit])).flatten
    ++ (upd.map (fun p => [DbEvent.updateRow p.2, DbEvent.commit])).flatten
  if del.isEmpty then (evs, true)
  else if !upd.isEmpty then (evs, false)
  else (evs ++ (del.map (fun p => [DbEvent.deleteRow p.1, DbEvent.commit])).flatten, true)

/-! ## Service state (`TOOL_TABLE` replacement on reload) -/

structure ServiceState where
  TOOL_TABLE : ToolTable
  orig_header_lines : List (List Char)
deriving DecidableEq, Repr

/-- The file-variant `loadToolTable` as a state transformer: the freshly
built table is assigned wholesale (`self.__class__.TOOL_TABLE = table`);
the previous table is not consulted. -/
def serviceLoad (st : ServiceState) (rawLines : List (List Char)) : ServiceState :=
  let res := loadToolTableLines st.orig_header_lines rawLines
  { TOOL_TABLE := res.table, orig_header_lines := res.origHeader }

/-! ## Character-class facts -/

theorem char_eq_of_toNat_eq {c d : Char} (h : c.toNat = d.toNat) : c = d := by
  rcases c with ⟨⟨cv, hc⟩, hc2⟩
  rcases d with ⟨⟨dv, hd⟩, hd2⟩
  simp only [Char.toNat, UInt32.toNat] at h
  congr

theorem toNat_of_isDigit {c : Char} (h : c.isDigit = true) :
    48 ≤ c.toNat ∧ c.toNat ≤ 57 := by
  simpa [Char.isDigit, Char.le_def] using h

theorem toNat_of_isUpperAZ {c : Char} (h : isUpperAZ c = true) :
    65 ≤ c.toNat ∧ c.toNat ≤ 90 := by
  simpa [isUpperAZ, Char.le_def] using h

theorem toNat_of_isValChar {c : Char} (h : isValChar c = true) :
    c.toNat = 46 ∨ c.toNat = 43 ∨ c.toNat = 45 ∨ (48 ≤ c.toNat ∧ c.toNat ≤ 57) := by
  simp only [isValChar, Bool.or_eq_true] at h
  rcases h with ((hd | h) | h) | h
  · exact Or.inr (Or.inr (Or.inr (toNat_of_isDigit hd)))
  · simp only [decide_eq_true_eq] at h
    subst h
    exact Or.inl rfl
  · simp only [decide_eq_true_eq] at h
    subst h
    exact Or.inr (Or.inl rfl)
  · simp only [decide_eq_true_eq] at h
    subst h
    exact Or.inr (Or.inr (Or.inl rfl))

theorem toNat_of_isPyWS {c : Char} (h : isPyWS c = true) :
    c.toNat = 32 ∨ c.toNat = 9 ∨ c.toNat = 10 ∨ c.toNat = 13 ∨
      c.toNat = 11 ∨ c.toNat = 12 := by
  simp only [isPyWS, Bool.or_eq_true, decide_eq_true_eq] at h
  rcases h with ((((h | h) | h) | h) | h) | h <;> subst h <;> decide

theorem isPyWS_false_of_toNat {c : Char}
    (h : c.toNat ≠ 32 ∧ c.toNat ≠ 9 ∧ c.toNat ≠ 10 ∧ c.toNat ≠ 13 ∧
      c.toNat ≠ 11 ∧ c.toNat ≠ 12) : isPyWS c = false := by
  rcases hw : isPyWS c with _ | _
  · rfl
  · exfalso
    rcases toNat_of_isPyWS hw with h' | h' | h' | h' | h' | h' <;> omega

theorem isPyWS_of_isValChar {c : Char} (h : isValChar c = true) :
    isPyWS c = false := by
  apply isPyWS_false_of_toNat
  rcases toNat_of_isValChar h with h' | h' | h' | h' <;> omega

theorem isPyWS_of_isUpperAZ {c : Char} (h : isUpperAZ c = true) :
    isPyWS c = false := by
  apply isPyWS_false_of_toNat
  have := toNat_of_isUpperAZ h
  omega

theorem ne_of_toNat_ne {c d : Char} (h : c.toNat ≠ d.toNat) : c ≠ d := by
  intro hcon
  exact h (congrArg Char.toNat hcon)

theorem ne_semi_of_isValChar {c : Char} (h : isValChar c = true) : c ≠ ';' := by
  apply ne_of_toNat_ne
  have h59 : (';' : Char).toNat = 59 := by decide
  rw [h59]
  rcases toNat_of_isValChar h with h' | h' | h' | h' <;> omega

theorem ne_semi_of_isUpperAZ {c : Char} (h : isUpperAZ c = true) : c ≠ ';' := by
  apply ne_of_toNat_ne
  have h59 : (';' : Char).toNat = 59 := by decide
  rw [h59]
  have := toNat_of_isUpperAZ h
  omega

theorem ne_nl_of_isValChar {c : Char} (h : isValChar c = true) : c ≠ '\n' := by
  apply ne_of_toNat_ne
  have h10 : ('\n' : Char).toNat = 10 := by decide
  rw [h10]
  rcases toNat_of_isValChar h with h' | h' | h' | h' <;> omega

theorem ne_nl_of_isUpperAZ {c : Char} (h : isUpperAZ c = true) : c ≠ '\n' := by
  apply ne_of_toNat_ne
  have h10 : ('\n' : Char).toNat = 10 := by decide
  rw [h10]
  have := toNat_of_isUpperAZ h
  omega

theorem not_isUpperAZ_of_isValChar {c : Char} (h : isValChar c = true) :
    isUpperAZ c = false := by
  rcases hu : isUpperAZ c with _ | _
  · rfl
  · have h1 := toNat_of_isUpperAZ hu
    rcases toNat_of_isValChar h with h' | h' | h' | h' <;> omega

theorem not_isValChar_of_isUpperAZ {c : Char} (h : isUpperAZ c = true) :
    isValChar c = false := by
  rcases hv : isValChar c with _ | _
  · rfl
  · have h1 := toNat_of_isUpperAZ h
    rcases toNat_of_isValChar hv with h' | h' | h' | h' <;> omega

/-! ## `pyStrip`, `removeSpaces`, `pyPartition` lemmas -/

theorem dropWhile_append_singleton (p : Char → Bool) (xs : List Char) (c : Char)
    (hc : p c = false) : (xs ++ [c]).dropWhile p = xs.dropWhile p ++ [c] := by
  induction xs with
  | nil => simp [List.dropWhile, hc]
  | cons a as ih =>
    by_cases ha : p a
    · simp [List.dropWhile, ha, ih]
    · simp [List.dropWhile, ha]

/-- The trailing-whitespace strip. -/
def stripEnd (s : List Char) : List Char :=
  (s.reverse.dropWhile isPyWS).reverse

theorem pyStrip_cons_not_ws (c : Char) (s : List Char) (hc : isPyWS c = false) :
    pyStrip (c :: s) = c :: stripEnd s := by
  rw [pyStrip, stripEnd]
  rw [List.dropWhile_cons_of_neg (by simp [hc])]
  rw [List.reverse_cons, dropWhile_append_singleton _ _ _ hc]
  simp

theorem pyStrip_cons_ws (c : Char) (s : List Char) (hc : isPyWS c = true) :
    pyStrip (c :: s) = pyStrip s := by
  rw [pyStrip, pyStrip, List.dropWhile_cons_of_pos (by simp [hc])]

theorem pyStrip_nil : pyStrip [] = [] := rfl

theorem dropWhile_eq_self_of_head (p : Char → Bool) (l : List Char)
    (h : ∀ c, l.head? = some c → p c = false) : l.dropWhile p = l := by
  cases l with
  | nil => rfl
  | cons a as => exact List.dropWhile_cons_of_neg (by simp [h a rfl])

theorem pyStrip_eq_self (l : List Char)
    (h1 : ∀ c, l.head? = some c → isPyWS c = false)
    (h2 : ∀ c, l.getLast? = some c → isPyWS c = false) : pyStrip l = l := by
  rw [pyStrip, dropWhile_eq_self_of_head _ _ h1, dropWhile_eq_self_of_head, List.reverse_reverse]
  intro c hc
  rw [List.head?_reverse] at hc
  exact h2 c hc

theorem pyStrip_length_le (l : List Char) : (pyStrip l).length ≤ l.length := by
  rw [pyStrip]
  have h1 := length_dropWhile_le' isPyWS l
  have h2 := length_dropWhile_le' isPyWS (l.dropWhile isPyWS).reverse
  simp only [List.length_reverse] at *
  omega

theorem removeSpaces_dropWhile (l : List Char)
    (hs : ∀ c ∈ l, isPyWS c = true → c = ' ') :
    removeSpaces (l.dropWhile isPyWS) = removeSpaces l := by
  induction l with
  | nil => rfl
  | cons a as ih =>
    by_cases ha : isPyWS a
    · rw [List.dropWhile_cons_of_pos (by simp [ha])]
      have hasp : a = ' ' := hs a (by simp) ha
      subst hasp
      rw [ih (fun c hc => hs c (by simp [hc]))]
      simp [removeSpaces]
    · rw [List.dropWhile_cons_of_neg (by simp [ha])]

theorem removeSpaces_reverse (l : List Char) :
    removeSpaces l.reverse = (removeSpaces l).reverse := by
  simp [removeSpaces, List.filter_reverse]

theorem removeSpaces_pyStrip (l : List Char)
    (hs : ∀ c ∈ l, isPyWS c = true → c = ' ') :
    removeSpaces (pyStrip l) = removeSpaces l := by
  rw [pyStrip]
  have hmem1 : ∀ c ∈ l.dropWhile isPyWS, c ∈ l := fun c hc => List.dropWhile_subset _ hc
  rw [removeSpaces_reverse, removeSpaces_dropWhile _ (fun c hc h =>
    hs c (by simpa using hmem1 c (by simpa using hc)) h)]
  rw [removeSpaces_reverse, List.reverse_reverse]
  exact removeSpaces_dropWhile l hs

theorem pyPartition_no_sep (sep : Char) (l : List Char) (h : sep ∉ l) :
    pyPartition sep l = (l, []) := by
  induction l with
  | nil => rfl
  | cons a as ih =>
    rw [pyPartition]
    rw [if_neg (by rintro rfl; exact h (by simp))]
    rw [ih (fun hc => h (by simp [hc]))]

theorem pyPartition_append_sep (sep : Char) (xs ys : List Char) (h : sep ∉ xs) :
    pyPartition sep (xs ++ sep :: ys) = (xs, ys) := by
  induction xs with
  | nil => simp [pyPartition]
  | cons a as ih =>
    rw [List.cons_append, pyPartition]
    rw [if_neg (by rintro rfl; exact h (by simp))]
    rw [ih (fun hc => h (by simp [hc]))]


/-! ## Table (`dict`) lemmas -/

theorem lookup_cons (k a : Int) (b : Tool) (rest : ToolTable) :
    List.lookup k ((a, b) :: rest) = if k = a then some b else List.lookup k rest := by
  rw [List.lookup]
  rcases h : k == a with _ | _
  · simp only [if_neg (by simpa using h)]
  · simp only [if_pos (by simpa using h)]

theorem lookup_append_of_none (l1 l2 : ToolTable) (k : Int)
    (h : l1.lookup k = none) : (l1 ++ l2).lookup k = l2.lookup k := by
  induction l1 with
  | nil => rfl
  | cons p rest ih =>
    obtain ⟨a, b⟩ := p
    rw [lookup_cons] at h
    by_cases hk : k = a
    · rw [if_pos hk] at h
      exact absurd h (by simp)
    · rw [if_neg hk] at h
      rw [List.cons_append, lookup_cons, if_neg hk]
      exact ih h

theorem lookup_append_of_some (l1 l2 : ToolTable) (k : Int) (b : Tool)
    (h : l1.lookup k = some b) : (l1 ++ l2).lookup k = some b := by
  induction l1 with
  | nil => simp [List.lookup] at h
  | cons p rest ih =>
    obtain ⟨a, c⟩ := p
    rw [lookup_cons] at h
    rw [List.cons_append, lookup_cons]
    by_cases hk : k = a
    · rw [if_pos hk] at h ⊢
      exact h
    · rw [if_neg hk] at h ⊢
      exact ih h

theorem lookup_map_replace (tbl : ToolTable) (k : Int) (v : Tool)
    (hp : (tbl.lookup k).isSome = true) :
    (tbl.map (fun p => if p.1 = k then (k, v) else p)).lookup k = some v := by
  induction tbl with
  | nil => simp [List.lookup] at hp
  | cons p rest ih =>
    obtain ⟨a, b⟩ := p
    by_cases hk : a = k
    · subst hk
      simp [lookup_cons]
    · simp only [List.map_cons]
      rw [if_neg (by simpa using hk)]
      rw [lookup_cons, if_neg (fun h => hk h.symm)]
      apply ih
      rw [lookup_cons, if_neg (fun h => hk h.symm)] at hp
      exact hp

theorem lookup_map_replace_ne (tbl : ToolTable) (k : Int) (v : Tool) (k' : Int)
    (h : k' ≠ k) :
    (tbl.map (fun p => if p.1 = k then (k, v) else p)).lookup k' = tbl.lookup k' := by
  induction tbl with
  | nil => rfl
  | cons p rest ih =>
    obtain ⟨a, b⟩ := p
    by_cases hk : a = k
    · subst hk
      simp [lookup_cons, h, ih]
    · simp only [List.map_cons]
      rw [if_neg (by simpa using hk)]
      rw [lookup_cons, lookup_cons]
      by_cases hka : k' = a
      · rw [if_pos hka, if_pos hka]
      · rw [if_neg hka, if_neg hka]
        exact ih

theorem lookup_tableSet_self (tbl : ToolTable) (k : Int) (v : Tool) :
    (tableSet tbl k v).lookup k = some v := by
  rw [tableSet]
  split
  · exact lookup_map_replace tbl k v (by assumption)
  · rename_i hp
    have hnone : tbl.lookup k = none := by
      rcases hl : tbl.lookup k with _ | b
      · rfl
      · rw [hl] at hp
        simp at hp
    rw [lookup_append_of_none _ _ _ hnone, lookup_cons, if_pos rfl]

theorem lookup_tableSet_ne (tbl : ToolTable) (k : Int) (v : Tool) (k' : Int)
    (h : k' ≠ k) : (tableSet tbl k v).lookup k' = tbl.lookup k' := by
  rw [tableSet]
  split
  · exact lookup_map_replace_ne tbl k v k' h
  · rename_i hp
    rcases hl : tbl.lookup k' with _ | b
    · rw [lookup_append_of_none _ _ _ hl, lookup_cons, if_neg h]
      rfl
    · exact lookup_append_of_some _ _ _ _ hl

/-! ## Fold lemmas for the row loop -/

theorem foldl_stepLine_lookup_ne (rows : List (List Char)) :
    ∀ (acc : ToolTable × List LogEvent) (k : Int),
      (∀ l ∈ rows, (parseLine l).tool.T ≠ k) →
      ((rows.foldl stepLine acc).1).lookup k = acc.1.lookup k := by
  induction rows with
  | nil => intro acc k _; rfl
  | cons l rest ih =>
    intro acc k h
    rw [List.foldl_cons, ih _ k (fun l' hl' => h l' (by simp [hl']))]
    simp only [stepLine]
    split
    · rfl
    · exact lookup_tableSet_ne _ _ _ _ (fun hk => (h l (by simp)) hk.symm)

theorem foldl_stepLine_lookup_zero_isSome (rows : List (List Char)) :
    ∀ (acc : ToolTable × List LogEvent),
      (acc.1.lookup 0).isSome = true →
      (((rows.foldl stepLine acc).1).lookup 0).isSome = true := by
  induction rows with
  | nil => intro acc h; exact h
  | cons l rest ih =>
    intro acc h
    rw [List.foldl_cons]
    apply ih
    simp only [stepLine]
    split
    · exact h
    · by_cases hz : (parseLine l).tool.T = 0
      · rw [← hz, lookup_tableSet_self]
        rfl
      · rw [lookup_tableSet_ne _ _ _ _ (fun hk => hz hk.symm)]
        exact h

theorem foldl_stepLine_lookup_neg_one (rows : List (List Char)) :
    ∀ (acc : ToolTable × List LogEvent),
      acc.1.lookup (-1) = none →
      ((rows.foldl stepLine acc).1).lookup (-1) = none := by
  induction rows with
  | nil => intro acc h; exact h
  | cons l rest ih =>
    intro acc h
    rw [List.foldl_cons]
    apply ih
    simp only [stepLine]
    split
    · exact h
    · rename_i hne
      rw [lookup_tableSet_ne _ _ _ _ (fun hk => hne hk.symm)]
      exact h

/-! ## Claim C2 -/

/-- C2 counterexample: the file row `T0 P5` resolves to tool number `0` and
*overwrites* the sentinel at key `0` — the decoded record at key `0` has
`P = 5` and an empty remark instead of the fixed `NO_TOOL` fields. -/
theorem C2_counterexample :
    ((loadToolTableLines [] ["T0 P5".toList]).table).lookup 0
        = some { DEFAULT_TOOL with T := 0, P := 5 }
    ∧ ({ DEFAULT_TOOL with T := 0, P := 5 } : Tool) ≠ NO_TOOL := by
  constructor
  · decide
  · decide

/-- C2 (amended): every decoded table has *a* record at key `0`; it is the
fixed sentinel `NO_TOOL` as long as no file row resolves to tool number
`0`, but a row resolving to `0` overwrites the sentinel's fields. -/
theorem C2_sentinel_amended :
    (∀ (prev lines : List (List Char)),
        (((loadToolTableLines prev lines).table).lookup 0).isSome = true)
    ∧ (∀ (prev lines : List (List Char)),
        (∀ l ∈ lines, (parseLine (pyStrip l)).tool.T ≠ 0) →
        ((loadToolTableLines prev lines).table).lookup 0 = some NO_TOOL) := by
  constructor
  · intro prev lines
    rw [loadToolTableLines]
    split
    · exact foldl_stepLine_lookup_zero_isSome _ _ (by decide)
    · exact foldl_stepLine_lookup_zero_isSome _ _ (by decide)
  · intro prev lines h
    have hrows : ∀ rows : List (List Char),
        (∀ l' ∈ rows, l' ∈ lines.map pyStrip) →
        ((loadRows rows).1).lookup 0 = some NO_TOOL := by
      intro rows hsub
      rw [loadRows, foldl_stepLine_lookup_ne]
      · decide
      · intro l' hl'
        obtain ⟨l, hl, rfl⟩ := List.mem_map.mp (hsub l' hl')
        exact h l hl
    rw [loadToolTableLines]
    split
    · exact hrows _ (fun l' hl' => List.drop_subset _ _ hl')
    · exact hrows _ (fun l' hl' => hl')

/-- C2 witness: a file with a single `T1` row keeps the sentinel intact. -/
theorem C2_witness :
    (loadToolTableLines [] ["T1".toList]).table.lookup 0 = some NO_TOOL :=
  C2_sentinel_amended.2 [] ["T1".toList] (by decide)

/-! ## Claim C5 -/

/-- Whether the per-item step of `loadToolTable` passes this item without
`break`ing (unknown descriptors are skipped, known ones must coerce). -/
def itemOk (item : List Char) : Bool :=
  match item with
  | [] => true
  | d :: value =>
      if isKnownDesc d then
        if d = 'T' ∨ d = 'P' ∨ d = 'Q' then (pyInt value).isSome
        else (pyFloat value).isSome
      else true

/-- A row on which some token's numeric coercion failed (the row's log list
is non-empty exactly when the item loop hit a coercion error). -/
def lineHasCoercionFailure (l : List Char) : Bool :=
  !(parseLine l).logs.isEmpty

theorem applyItems_break (t : Tool) (pre : List (List Char)) (bad : List Char)
    (post : List (List Char)) (hpre : ∀ it ∈ pre, itemOk it = true)
    (hbad : itemOk bad = false) :
    ∃ e, applyItems t (pre ++ bad :: post) = ((applyItems t pre).1, [e]) := by
  induction pre generalizing t with
  | nil =>
    simp only [List.nil_append]
    rcases bad with _ | ⟨d, value⟩
    · simp [itemOk] at hbad
    · rw [itemOk] at hbad
      by_cases hk : isKnownDesc d
      · by_cases hTPQ : d = 'T' ∨ d = 'P' ∨ d = 'Q'
        · rcases hint : pyInt value with _ | n
          · exact ⟨LogEvent.errInt value, by simp [applyItems, hk, hTPQ, hint]⟩
          · rw [if_pos hk, if_pos hTPQ, hint] at hbad
            simp at hbad
        · rcases hfl : pyFloat value with _ | q
          · exact ⟨LogEvent.errFloat value, by simp [applyItems, hk, hTPQ, hfl]⟩
          · rw [if_pos hk, if_neg hTPQ, hfl] at hbad
            simp at hbad
      · rw [if_neg hk] at hbad
        simp at hbad
  | cons it rest ih =>
    have hit : itemOk it = true := hpre it (by simp)
    have hrest : ∀ x ∈ rest, itemOk x = true := fun x hx => hpre x (by simp [hx])
    rcases it with _ | ⟨d, value⟩
    · obtain ⟨e, he⟩ := ih (t := t) hrest
      exact ⟨e, by simp [applyItems, he]⟩
    · rw [itemOk] at hit
      by_cases hk : isKnownDesc d
      · by_cases hTPQ : d = 'T' ∨ d = 'P' ∨ d = 'Q'
        · rcases hint : pyInt value with _ | n
          · rw [if_pos hk, if_pos hTPQ, hint] at hit
            simp at hit
          · obtain ⟨e, he⟩ := ih (t := setColInt t d n) hrest
            exact ⟨e, by simp [applyItems, hk, hTPQ, hint, he]⟩
        · rcases hfl : pyFloat value with _ | q
          · rw [if_pos hk, if_neg hTPQ, hfl] at hit
            simp at hit
          · obtain ⟨e, he⟩ := ih (t := setColFloat t d q) hrest
            exact ⟨e, by simp [applyItems, hk, hTPQ, hfl, he]⟩
      · obtain ⟨e, he⟩ := ih (t := t) hrest
        exact ⟨e, by simp [applyItems, hk, he]⟩

/-- C5: per-row coercion-failure handling of `loadToolTable`.
(1) If every item before `bad` steps cleanly and `bad`'s value fails its
coercion, the item loop returns the record built from the earlier items
alone (later tokens abandoned, previously parsed fields kept, unparsed
fields left at the values they had — the defaults when starting from
`DEFAULT_TOOL`) together with exactly one error-severity log entry.
(2) A failing row never aborts the file load: any later row still lands in
the table under its tool number.
(3) A row whose resolved tool number is `-1` leaves the table unchanged,
and (4) no table produced by the row loop ever has a record at key `-1`. -/
theorem C5_parse_failure :
    (∀ (t : Tool) (pre : List (List Char)) (bad : List Char)
        (post : List (List Char)),
        (∀ it ∈ pre, itemOk it = true) → itemOk bad = false →
        ∃ e, applyItems t (pre ++ bad :: post) = ((applyItems t pre).1, [e]))
    ∧ (∀ (rows1 : List (List Char)) (bad : List Char) (a b : List (List Char))
          (r : List Char),
        lineHasCoercionFailure bad = true →
        (parseLine r).tool.T ≠ -1 →
        (∀ r' ∈ b, (parseLine r').tool.T ≠ (parseLine r).tool.T) →
        ((loadRows (rows1 ++ bad :: (a ++ r :: b))).1).lookup (parseLine r).tool.T
          = some (parseLine r).tool)
    ∧ (∀ (acc : ToolTable × List LogEvent) (l : List Char),
        (parseLine l).tool.T = -1 → (stepLine acc l).1 = acc.1)
    ∧ (∀ rows : List (List Char), ((loadRows rows).1).lookup (-1) = none) := by
  refine ⟨applyItems_break, ?_, ?_, ?_⟩
  · intro rows1 bad a b r _hfail ht hb
    rw [loadRows, List.foldl_append, List.foldl_cons, List.foldl_append,
      List.foldl_cons, foldl_stepLine_lookup_ne b _ _ hb]
    simp only [stepLine]
    rw [if_neg ht]
    exact lookup_tableSet_self _ _ _
  · intro acc l h
    simp [stepLine, h]
  · intro rows
    exact foldl_stepLine_lookup_neg_one rows _ (by decide)

/-- C5 witness: `P2` parses, then `T1.5` fails integer coercion and the
trailing `Z9` token is abandoned; a later `T7` row still loads after a
failing `P1.5` row; an `X9` row keeps `T = -1` and is skipped; `-1` is
never a key. -/
theorem C5_witness :
    (∃ e, applyItems DEFAULT_TOOL
        ([['P', '2']] ++ ['T', '1', '.', '5'] :: [['Z', '9']])
        = ((applyItems DEFAULT_TOOL [['P', '2']]).1, [e]))
    ∧ ((loadRows ([] ++ "P1.5".toList :: ([] ++ "T7".toList :: []))).1).lookup
        (parseLine "T7".toList).tool.T = some (parseLine "T7".toList).tool
    ∧ (stepLine ([(0, NO_TOOL)], []) "X9".toList).1 = [(0, NO_TOOL)]
    ∧ ((loadRows ["P1.5".toList]).1).lookup (-1) = none :=
  ⟨C5_parse_failure.1 DEFAULT_TOOL _ _ _ (by decide) (by decide),
   C5_parse_failure.2.1 [] _ [] [] _ (by decide) (by decide) (by decide),
   C5_parse_failure.2.2.1 _ _ (by decide),
   C5_parse_failure.2.2.2 _⟩

/-! ## Claim C9 -/

/-- C9: if the write, flush or fsync fails, the save reports failure to the
caller and `CMD.load_tool_table()` is never issued; on success the events
are exactly write, flush, fsync and then the reload command, in order. -/
theorem C9_durable_save :
    (∀ w f s : Bool, w = false ∨ f = false ∨ s = false →
        (writeAndReload w f s).2 = false
        ∧ SaveEvent.cmdLoadToolTable ∉ (writeAndReload w f s).1)
    ∧ writeAndReload true true true
        = ([SaveEvent.writeData, SaveEvent.flushData, SaveEvent.fsyncData,
            SaveEvent.cmdLoadToolTable], true) := by
  constructor
  · decide
  · rfl

/-- C9 witness: a failing fsync propagates and suppresses the reload. -/
theorem C9_witness :
    (writeAndReload true true false).2 = false
    ∧ SaveEvent.cmdLoadToolTable ∉ (writeAndReload true true false).1 :=
  C9_durable_save.1 true true false (Or.inr (Or.inr rfl))

/-! ## Claim C6 -/

/-- C6: `current_tool` with no key returns the full record of the tool in
the spindle; with a key it returns the single field selected by the
upper-cased *first character* of the key (so `Z` and `z_offset` both give
the Z offset); and a spindle tool number missing from the table signals
`UnknownToolError` instead of returning a default record. -/
theorem C6_current_tool :
    (∀ (tbl : ToolTable) (spindle : Int) (t : Tool),
        tbl.lookup spindle = some t →
        current_tool tbl spindle none = Except.ok (CurrentToolResult.record t)
        ∧ current_tool tbl spindle (some ['Z'])
            = Except.ok (CurrentToolResult.field (some (Value.f t.Z)))
        ∧ current_tool tbl spindle (some "z_offset".toList)
            = Except.ok (CurrentToolResult.field (some (Value.f t.Z))))
    ∧ (∀ (tbl : ToolTable) (spindle : Int), tbl.lookup spindle = none →
        ∀ item, current_tool tbl spindle item
          = Except.error ToolError.UnknownToolError) := by
  constructor
  · intro tbl spindle t h
    refine ⟨?_, ?_, ?_⟩ <;> simp [current_tool, h, toolGet]
  · intro tbl spindle h item
    simp [current_tool, h]

/-- C6 witness: a one-entry table at spindle 3, and an empty table. -/
theorem C6_witness :
    current_tool [(3, NO_TOOL)] 3 none = Except.ok (CurrentToolResult.record NO_TOOL)
    ∧ current_tool [(3, NO_TOOL)] 3 (some "z_offset".toList)
        = Except.ok (CurrentToolResult.field (some (Value.f NO_TOOL.Z)))
    ∧ current_tool [] 4 none = Except.error ToolError.UnknownToolError :=
  ⟨(C6_current_tool.1 [(3, NO_TOOL)] 3 NO_TOOL (by decide)).1,
   (C6_current_tool.1 [(3, NO_TOOL)] 3 NO_TOOL (by decide)).2.2,
   C6_current_tool.2 [] 4 (by decide) none⟩

/-! ## Claims C7 and C8 -/

def sampleTool (i : Int) : Tool := { DEFAULT_TOOL with T := i }

/-- C7: for persisted tools `{1,2,3}` and desired tools `{2,3,4}` with tool
2's record changed, the reconciliation classifies tool 4 as the insertion,
tool 1 as the deletion and tool 2 as the update carrying the full new
record — but the apply loop performs only the insert and the update (one
commit each) and then *fails* (`AttributeError`): the update loop rebound
`tool_data` from the query object to a row object, so the delete block's
`tool_data.filter(...)` raises and tool 1 is never deleted. -/
theorem C7_db_save_divergence :
    diffInserted [(1, sampleTool 1), (2, sampleTool 2), (3, sampleTool 3)]
        [(2, { sampleTool 2 with Z := 1 }), (3, sampleTool 3), (4, sampleTool 4)]
      = [(4, sampleTool 4)]
    ∧ diffUpdated [(1, sampleTool 1), (2, sampleTool 2), (3, sampleTool 3)]
        [(2, { sampleTool 2 with Z := 1 }), (3, sampleTool 3), (4, sampleTool 4)]
      = [(2, { sampleTool 2 with Z := 1 })]
    ∧ diffDeleted [(1, sampleTool 1), (2, sampleTool 2), (3, sampleTool 3)]
        [(2, { sampleTool 2 with Z := 1 }), (3, sampleTool 3), (4, sampleTool 4)]
      = [(1, sampleTool 1)]
    ∧ db_saveToolTable [(1, sampleTool 1), (2, sampleTool 2), (3, sampleTool 3)]
        [(2, { sampleTool 2 with Z := 1 }), (3, sampleTool 3), (4, sampleTool 4)]
      = ([DbEvent.insertRow (sampleTool 4), DbEvent.commit,
          DbEvent.updateRow { sampleTool 2 with Z := 1 }, DbEvent.commit],
         false) := by
  refine ⟨?_, ?_, ?_, ?_⟩ <;> decide

/-- C8 counterexample: the db variant's `loadToolTable` mutates its table
in place — with an empty backing store, a stale entry for tool 5 survives
the reload and no sentinel is present at key 0. -/
theorem C8_counterexample :
    db_loadToolTable [(5, sampleTool 5)] [] = [(5, sampleTool 5)]
    ∧ (db_loadToolTable [(5, sampleTool 5)] []).lookup 5 = some (sampleTool 5)
    ∧ (db_loadToolTable [(5, sampleTool 5)] []).lookup 0 = none := by
  refine ⟨rfl, by decide, by decide⟩

theorem mem_keys_tableSet (tbl : ToolTable) (k' : Int) (v : Tool) (k : Int)
    (h : k ∈ tableKeys (tableSet tbl k' v)) : k ∈ tableKeys tbl ∨ k = k' := by
  rw [tableSet] at h
  split at h
  · rw [tableKeys, List.map_map] at h
    obtain ⟨p, hp, hpk⟩ := List.mem_map.mp h
    simp only [Function.comp] at hpk
    by_cases hpk' : p.1 = k'
    · rw [if_pos hpk'] at hpk
      exact Or.inr hpk.symm
    · rw [if_neg hpk'] at hpk
      exact Or.inl (List.mem_map.mpr ⟨p, hp, hpk⟩)
  · rw [tableKeys, List.map_append] at h
    rcases List.mem_append.mp h with h' | h'
    · exact Or.inl h'
    · simp at h'
      exact Or.inr h'

theorem mem_keys_foldl_stepLine (rows : List (List Char)) :
    ∀ (acc : ToolTable × List LogEvent) (k : Int),
      k ∈ tableKeys ((rows.foldl stepLine acc).1) →
      k ∈ tableKeys acc.1 ∨ ∃ l ∈ rows, (parseLine l).tool.T = k := by
  induction rows with
  | nil =>
    intro acc k h
    exact Or.inl h
  | cons l rest ih =>
    intro acc k h
    rw [List.foldl_cons] at h
    rcases ih _ k h with h' | ⟨l', hl', hl'k⟩
    · simp only [stepLine] at h'
      split at h'
      · exact Or.inl h'
      · rcases mem_keys_tableSet _ _ _ _ h' with h'' | h''
        · exact Or.inl h''
        · exact Or.inr ⟨l, by simp, h''.symm⟩
    · exact Or.inr ⟨l', by simp [hl'], hl'k⟩

/-- C8 (amended): the file-variant `loadToolTable` replaces the service
table wholesale — the resulting table is a function of the file lines
alone (two services with different current tables and headers compute the
same table), key `0` is always present, and every key of the new table is
`0` or the tool number of some parsed source row.  The db variant instead
updates its table in place, so entries absent from the backing store
survive a reload (see the counterexample). -/
theorem C8_wholesale_amended :
    (∀ (st st' : ServiceState) (rawLines : List (List Char)),
        (serviceLoad st rawLines).TOOL_TABLE = (serviceLoad st' rawLines).TOOL_TABLE)
    ∧ (∀ (st : ServiceState) (rawLines : List (List Char)),
        (((serviceLoad st rawLines).TOOL_TABLE).lookup 0).isSome = true)
    ∧ (∀ (st : ServiceState) (rawLines : List (List Char)) (k : Int),
        k ∈ tableKeys (serviceLoad st rawLines).TOOL_TABLE →
        k = 0 ∨ ∃ l ∈ rawLines, (parseLine (pyStrip l)).tool.T = k) := by
  refine ⟨?_, ?_, ?_⟩
  · intro st st' rawLines
    rw [serviceLoad, serviceLoad, loadToolTableLines, loadToolTableLines]
    split <;> rfl
  · intro st rawLines
    rw [serviceLoad, loadToolTableLines]
    split
    · exact foldl_stepLine_lookup_zero_isSome _ _ (by decide)
    · exact foldl_stepLine_lookup_zero_isSome _ _ (by decide)
  · intro st rawLines k
    have hrows : ∀ rows : List (List Char),
        (∀ l' ∈ rows, l' ∈ rawLines.map pyStrip) →
        k ∈ tableKeys ((loadRows rows).1) →
        k = 0 ∨ ∃ l ∈ rawLines, (parseLine (pyStrip l)).tool.T = k := by
      intro rows hsub hk
      rcases mem_keys_foldl_stepLine rows _ k hk with h' | ⟨l', hl', hl'k⟩
      · left
        simpa [tableKeys] using h'
      · right
        obtain ⟨l, hl, rfl⟩ := List.mem_map.mp (hsub l' hl')
        exact ⟨l, hl, hl'k⟩
    rw [serviceLoad, loadToolTableLines]
    split
    · exact hrows _ (fun l' hl' => List.drop_subset _ _ hl')
    · exact hrows _ (fun l' hl' => hl')

/-- C8 witness: loading `T7` over two different stale states yields the
same table, whose only keys are `0` and `7`. -/
theorem C8_witness :
    (serviceLoad ⟨[(9, sampleTool 9)], []⟩ ["T7".toList]).TOOL_TABLE
        = (serviceLoad ⟨[(0, NO_TOOL)], [['x']]⟩ ["T7".toList]).TOOL_TABLE
    ∧ ((7 : Int) = 0 ∨ ∃ l ∈ ["T7".toList], (parseLine (pyStrip l)).tool.T = 7) :=
  ⟨C8_wholesale_amended.1 ⟨[(9, sampleTool 9)], []⟩ ⟨[(0, NO_TOOL)], [['x']]⟩ ["T7".toList],
   C8_wholesale_amended.2.2 ⟨[(9, sampleTool 9)], []⟩ ["T7".toList] 7 (by decide)⟩

/-! ## Claim C10 -/

/-- C10 counterexample: the db variant's membership test is Python
*substring* membership in `'TPXYZABCUVWDIJQR'`, so the element `XY` — not
a column identifier — is kept. -/
theorem C10_counterexample :
    db_validateColumns (ColumnsArg.list ["XY".toList]) = some ["XY".toList]
    ∧ "XY".toList ∉ ALL_COLUMNS := by
  constructor
  · decide
  · decide

/-- C10 (amended): for strings (iterated as one-character strings) and for
lists/tuples of strings, both variants return the elements stripped and
upper-cased with order and duplicates preserved (a sublist of the mapped
elements, with counts preserved on kept elements), the file variant keeping
exactly the members of `ALL_COLUMNS` and the db variant keeping exactly the
non-empty substrings of `'TPXYZABCUVWDIJQR'`; any other argument type
yields `None`.  (A list holding a non-string raises `AttributeError` at
`col.strip()` in both variants, so list elements are taken to be strings.) -/
theorem C10_validateColumns_amended :
    (∀ s, validateColumns (ColumnsArg.str s)
        = validateColumns (ColumnsArg.list (s.map (fun c => [c]))))
    ∧ (∀ xs, validateColumns (ColumnsArg.tuple xs)
        = validateColumns (ColumnsArg.list xs))
    ∧ (∀ s, db_validateColumns (ColumnsArg.str s)
        = db_validateColumns (ColumnsArg.list (s.map (fun c => [c]))))
    ∧ (∀ xs, db_validateColumns (ColumnsArg.tuple xs)
        = db_validateColumns (ColumnsArg.list xs))
    ∧ (∀ xs, ∃ r, validateColumns (ColumnsArg.list xs) = some r
        ∧ r.Sublist (xs.map (fun col => pyUpper (pyStrip col)))
        ∧ (∀ col ∈ r, col ∈ ALL_COLUMNS)
        ∧ (∀ col, col ∈ ALL_COLUMNS →
            List.count col r
              = List.count col (xs.map (fun col => pyUpper (pyStrip col)))))
    ∧ (∀ xs, ∃ r, db_validateColumns (ColumnsArg.list xs) = some r
        ∧ r.Sublist (xs.map (fun col => pyUpper (pyStrip col)))
        ∧ (∀ col ∈ r, col ≠ [] ∧ col <:+: "TPXYZABCUVWDIJQR".toList)
        ∧ (∀ col, col ≠ [] → col <:+: "TPXYZABCUVWDIJQR".toList →
            List.count col r
              = List.count col (xs.map (fun col => pyUpper (pyStrip col)))))
    ∧ validateColumns ColumnsArg.other = none
    ∧ db_validateColumns ColumnsArg.other = none := by
  refine ⟨fun s => rfl, fun xs => rfl, fun s => rfl, fun xs => rfl,
    ?_, ?_, rfl, rfl⟩
  · intro xs
    refine ⟨_, rfl, List.filter_sublist _, ?_, ?_⟩
    · intro col hcol
      have := List.of_mem_filter hcol
      simp only [Bool.and_eq_true] at this
      have h1 := this.1
      simpa using h1
    · intro col hcol
      apply List.count_filter
      have hne : ¬col.isEmpty := by
        intro hc
        rw [List.isEmpty_iff] at hc
        subst hc
        revert hcol
        decide
      simp only [Bool.and_eq_true]
      exact ⟨by simpa using hcol, by simpa using hne⟩
  · intro xs
    refine ⟨_, rfl, List.filter_sublist _, ?_, ?_⟩
    · intro col hcol
      have := List.of_mem_filter hcol
      simp only [Bool.and_eq_true, decide_eq_true_eq] at this
      refine ⟨?_, this.1⟩
      have h2 := this.2
      intro hc
      subst hc
      simp at h2
    · intro col hne hsub
      apply List.count_filter
      simp only [Bool.and_eq_true, decide_eq_true_eq]
      refine ⟨hsub, ?_⟩
      simpa using hne

/-- C10 witness: concrete inputs through both variants — the file variant
keeps only known identifiers, and the db variant keeps the duplicated
non-identifier substring `XY` with its count preserved. -/
theorem C10_witness :
    validateColumns ColumnsArg.other = none
    ∧ (∃ r, validateColumns (ColumnsArg.list ["XY".toList, " t".toList]) = some r
        ∧ (∀ col ∈ r, col ∈ ALL_COLUMNS))
    ∧ (∃ r, db_validateColumns
          (ColumnsArg.list ["XY".toList, "q ".toList, "XY".toList]) = some r
        ∧ List.count "XY".toList r
            = List.count "XY".toList
              (["XY".toList, "q ".toList, "XY".toList].map
                (fun col => pyUpper (pyStrip col)))) :=
  ⟨C10_validateColumns_amended.2.2.2.2.2.2.1,
   (match C10_validateColumns_amended.2.2.2.2.1 ["XY".toList, " t".toList] with
    | ⟨r, h1, _, h3, _⟩ => ⟨r, h1, h3⟩),
   (match C10_validateColumns_amended.2.2.2.2.2.1
        ["XY".toList, "q ".toList, "XY".toList] with
    | ⟨r, h1, _, _, h4⟩ => ⟨r, h1, h4 "XY".toList (by decide) (by decide)⟩)⟩

/-! ## Claim C4 -/

/-- C4: decoding the scenario row yields `T=1, P=1, X=0, Z=-1.5` as the
claim says, but the remark keeps the *entire* comment
`[toolA.stl][#FF0000]end mill`: the model-path pattern
`r"\[([.*?]+)]"` is a literal character class (it can never match
`toola.stl`) so the model scan returns nothing, the color scan does find
`#FF0000`, and both results are only printed — never stored — leaving the
record's `STL`/`COLOR` fields empty. -/
theorem C4_metadata_divergence :
    (parseLine "T1 P1 X0.000000 Z-1.500000 ;[toolA.stl][#FF0000]end mill".toList).tool.T = 1
    ∧ (parseLine "T1 P1 X0.000000 Z-1.500000 ;[toolA.stl][#FF0000]end mill".toList).tool.P = 1
    ∧ (parseLine "T1 P1 X0.000000 Z-1.500000 ;[toolA.stl][#FF0000]end mill".toList).tool.X = 0
    ∧ (parseLine "T1 P1 X0.000000 Z-1.500000 ;[toolA.stl][#FF0000]end mill".toList).tool.Z
        = -(3 / 2 : ℚ)
    ∧ (parseLine "T1 P1 X0.000000 Z-1.500000 ;[toolA.stl][#FF0000]end mill".toList).tool.R
        = "[toolA.stl][#FF0000]end mill".toList
    ∧ (parseLine "T1 P1 X0.000000 Z-1.500000 ;[toolA.stl][#FF0000]end mill".toList).tool.R
        ≠ "end mill".toList
    ∧ (parseLine "T1 P1 X0.000000 Z-1.500000 ;[toolA.stl][#FF0000]end mill".toList).tool.STL = []
    ∧ (parseLine "T1 P1 X0.000000 Z-1.500000 ;[toolA.stl][#FF0000]end mill".toList).tool.COLOR = []
    ∧ (parseLine "T1 P1 X0.000000 Z-1.500000 ;[toolA.stl][#FF0000]end mill".toList).tool_model = []
    ∧ (parseLine "T1 P1 X0.000000 Z-1.500000 ;[toolA.stl][#FF0000]end mill".toList).path_color
        = ["#FF0000".toList] := by
  have hx : (-(3 / 2 : ℚ)) = -(mkRat 3 2) := by
    rw [Rat.mkRat_eq_div]
    norm_num
  have h0 : (0 : ℚ) = mkRat 0 1 := by
    rw [Rat.mkRat_eq_div]
    norm_num
  refine ⟨by decide, by decide, ?_, ?_, by decide, by decide, by decide, by decide,
    by decide, by decide⟩
  · rw [h0]
    decide
  · rw [hx]
    decide

/-! ## Claim C3 -/

/-- C3 counterexample: in the file `a / --- / b / ;Pocket Remark / T1` the
line `b` precedes the row-delimiter marker (the last `;`-line, here
`;Pocket Remark`) but is *not* preserved: the header scan stops at the
first `---`, keeping only `a`, and the saved output therefore does not
contain `b`. -/
theorem C3_counterexample :
    (loadToolTableLines []
        ["a".toList, "---".toList, "b".toList, ";Pocket Remark".toList,
         "T1".toList]).origHeader = [['a']]
    ∧ lastSemiIdx (["a".toList, "---".toList, "b".toList,
        ";Pocket Remark".toList, "T1".toList].map pyStrip) = some 3
    ∧ "b".toList ∉ saveToolTableLines
        (loadToolTableLines []
          ["a".toList, "---".toList, "b".toList, ";Pocket Remark".toList,
           "T1".toList]).origHeader
        [] [(0, NO_TOOL)] ['T'] ['T'] := by
  refine ⟨by decide, by decide, by decide⟩

/-- C3 (amended): across a load-then-save cycle with no header template
configured, the preserved header is exactly the longest prefix of the
stripped lines up to and including the marker containing no line that
strips to `---` and no line starting with `;Tool`; every preserved line
passes both tests, and the saved output emits the preserved header
verbatim as its leading lines.  (Lines after a `---` or `;Tool…` line are
dropped even though they precede the marker, and the marker line itself is
preserved whenever it does not start with `;Tool` — see the
counterexample.) -/
theorem C3_header_amended (prev rawLines : List (List Char)) (i : Nat)
    (h : lastSemiIdx (rawLines.map pyStrip) = some i) :
    (loadToolTableLines prev rawLines).origHeader
        = ((rawLines.map pyStrip).take (i + 1)).takeWhile keepHeaderLine
    ∧ (∀ l ∈ (loadToolTableLines prev rawLines).origHeader,
        pyStrip l ≠ "---".toList ∧ ¬(";Tool".toList <+: l))
    ∧ (∀ (tbl : ToolTable) (cols selfCols : List Char),
        saveToolTableLines (loadToolTableLines prev rawLines).origHeader []
            tbl cols selfCols
          = (loadToolTableLines prev rawLines).origHeader
            ++ titleLine cols selfCols ::
              ((sortedKeys tbl).drop 1).filterMap
                (fun k => (tbl.lookup k).map (fun t => rowLine cols t))) := by
  have hhdr : (loadToolTableLines prev rawLines).origHeader
      = ((rawLines.map pyStrip).take (i + 1)).takeWhile keepHeaderLine := by
    rw [loadToolTableLines]
    split
    · rename_i i' hi'
      rw [h] at hi'
      injection hi' with hi'
      rw [hi']
    · rename_i hnone
      rw [h] at hnone
      exact absurd hnone (by simp)
  refine ⟨hhdr, ?_, ?_⟩
  · intro l hl
    rw [hhdr] at hl
    have hkeep := List.mem_takeWhile_imp hl
    rw [keepHeaderLine, Bool.and_eq_true] at hkeep
    constructor
    · simpa using hkeep.1
    · intro hpre
      have : List.isPrefixOf ";Tool".toList l = true :=
        List.isPrefixOf_iff_prefix.mpr hpre
      rw [this] at hkeep
      simp at hkeep
  · intro tbl cols selfCols
    rw [saveToolTableLines]
    have hh : saveHeaderLines (loadToolTableLines prev rawLines).origHeader []
        = (loadToolTableLines prev rawLines).origHeader := by
      rw [saveHeaderLines]
      by_cases hne : (loadToolTableLines prev rawLines).origHeader = []
      · rw [hne]
        simp
      · simp only [if_neg (by simp : ¬(([] : List (List Char)) ≠ []))]
        rw [if_pos hne]
        simp [List.findIdx?]
    rw [hh]

/-- C3 witness: the amended statement at the counterexample's input. -/
theorem C3_witness :
    (loadToolTableLines []
        ["a".toList, "---".toList, "b".toList, ";Pocket Remark".toList,
         "T1".toList]).origHeader
      = ((["a".toList, "---".toList, "b".toList, ";Pocket Remark".toList,
          "T1".toList].map pyStrip).take (3 + 1)).takeWhile keepHeaderLine
    ∧ ∀ l ∈ (loadToolTableLines []
        ["a".toList, "---".toList, "b".toList, ";Pocket Remark".toList,
         "T1".toList]).origHeader,
        pyStrip l ≠ "---".toList ∧ ¬(";Tool".toList <+: l) :=
  ⟨(C3_header_amended [] _ 3 (by decide)).1,
   (C3_header_amended [] _ 3 (by decide)).2.1⟩

/-! ## Claim C1: infrastructure

The single-letter column universe, the unpadded token each column encodes
to, and its decoding effect on a record. -/

def letterCols : List Char :=
  ['T', 'P', 'X', 'Y', 'Z', 'A', 'B', 'C', 'U', 'V', 'W', 'D', 'I', 'J', 'Q', 'R']

def isFloatCol (c : Char) : Bool :=
  c = 'X' || c = 'Y' || c = 'Z' || c = 'A' || c = 'B' || c = 'C' || c = 'U' ||
    c = 'V' || c = 'W' || c = 'D' || c = 'I' || c = 'J'

/-- The token written for a column, without its left-justification padding
(spaces are removed again by the decoder before tokenizing). -/
def encTok (r : Tool) (c : Char) : List Char :=
  if isIntCol c then c :: intToChars (getColI r c) else c :: ratFixed6 (getColF r c)

/-- The effect of decoding one encoded column token onto a record. -/
def decCol (r t : Tool) (c : Char) : Tool :=
  if c = 'R' then t
  else if isIntCol c then setColInt t c (getColI r c)
  else setColFloat t c (rat6 (getColF r c))

theorem applyItems_cons_enc (c : Char) (hc : c ∈ letterCols) (hcR : c ≠ 'R')
    (r t : Tool) (rest : List (List Char)) :
    applyItems t (encTok r c :: rest) = applyItems (decCol r t c) rest := by
  fin_cases hc <;>
    first
      | exact absurd rfl hcR
      | simp +decide [encTok, decCol, applyItems, isIntCol, setColInt, setColFloat,
          pyInt_intToChars, pyFloat_ratFixed6]

/-- The unpadded tokens of one data row (`R` is skipped by the encoder). -/
def encToks (r : Tool) (cols : List Char) : List (List Char) :=
  cols.filterMap (fun c => if c = 'R' then none else some (encTok r c))

theorem applyItems_encToks (r : Tool) (cols : List Char)
    (hcols : ∀ c ∈ cols, c ∈ letterCols) :
    ∀ t, applyItems t (encToks r cols) = (cols.foldl (decCol r) t, []) := by
  induction cols with
  | nil => intro t; rfl
  | cons c cs ih =>
    intro t
    by_cases hcR : c = 'R'
    · subst hcR
      have henc : encToks r ('R' :: cs) = encToks r cs := by
        simp [encToks]
      rw [henc, ih (fun c hc => hcols c (by simp [hc])) t, List.foldl_cons]
      have hdec : decCol r t 'R' = t := by simp [decCol]
      rw [hdec]
    · have henc : encToks r (c :: cs) = encTok r c :: encToks r cs := by
        simp [encToks, hcR]
      rw [henc, applyItems_cons_enc c (hcols c (by simp)) hcR r t,
        ih (fun c hc => hcols c (by simp [hc])) (decCol r t c), List.foldl_cons]

/-! ### Fuel congruence and unfolding for the tokenizer -/

theorem findTokensFuel_congr :
    ∀ (n : Nat) (l : List Char), l.length ≤ n → ∀ (f₁ f₂ : Nat),
      l.length < f₁ → l.length < f₂ →
      findTokensFuel f₁ l = findTokensFuel f₂ l := by
  intro n
  induction n with
  | zero =>
    intro l hl f₁ f₂ h₁ h₂
    have : l = [] := List.length_eq_zero.mp (by omega)
    subst this
    match f₁, f₂ with
    | g₁ + 1, g₂ + 1 => rfl
  | succ n ih =>
    intro l hl f₁ f₂ h₁ h₂
    match f₁, f₂ with
    | g₁ + 1, g₂ + 1 =>
      cases l with
      | nil => rfl
      | cons c rest =>
        rw [findTokensFuel, findTokensFuel]
        simp only [List.length_cons] at hl h₁ h₂
        have hrest : rest.length ≤ n := by omega
        have hafterL := length_dropWhile_le' isUpperAZ rest
        by_cases hc : isUpperAZ c
        · rw [if_pos hc, if_pos hc]
          by_cases hval : (rest.dropWhile isUpperAZ).takeWhile isValChar = []
          · rw [if_pos hval, if_pos hval]
            exact ih _ (by omega) g₁ g₂ (by omega) (by omega)
          · rw [if_neg hval, if_neg hval]
            have hd := length_dropWhile_le' isValChar (rest.dropWhile isUpperAZ)
            rw [ih _ (by omega) g₁ g₂ (by omega) (by omega)]
        · rw [if_neg hc, if_neg hc]
          exact ih _ (by omega) g₁ g₂ (by omega) (by omega)

theorem findTokens_nil : findTokens [] = [] := rfl

theorem findTokens_cons (c : Char) (rest : List Char) :
    findTokens (c :: rest) =
      if isUpperAZ c then
        (if (rest.dropWhile isUpperAZ).takeWhile isValChar = [] then
          findTokens (rest.dropWhile isUpperAZ)
        else ((c :: rest.takeWhile isUpperAZ)
              ++ (rest.dropWhile isUpperAZ).takeWhile isValChar)
          :: findTokens ((rest.dropWhile isUpperAZ).dropWhile isValChar))
      else findTokens rest := by
  rw [findTokens, findTokensFuel]
  simp only [List.length_cons]
  have hafterL := length_dropWhile_le' isUpperAZ rest
  have hd := length_dropWhile_le' isValChar (rest.dropWhile isUpperAZ)
  by_cases hc : isUpperAZ c
  · rw [if_pos hc, if_pos hc]
    by_cases hval : (rest.dropWhile isUpperAZ).takeWhile isValChar = []
    · rw [if_pos hval, if_pos hval, findTokens]
      exact findTokensFuel_congr (rest.length + 1) _ (by omega) _ _ (by omega) (by omega)
    · rw [if_neg hval, if_neg hval]
      congr 1
      rw [findTokens]
      exact findTokensFuel_congr (rest.length + 1) _ (by omega) _ _ (by omega) (by omega)
  · rw [if_neg hc, if_neg hc, findTokens]

/-- The shape of every row token the encoder emits: one upper-case letter
then a non-empty run of value characters. -/
def goodTok (tok : List Char) : Prop :=
  ∃ c v, tok = c :: v ∧ isUpperAZ c = true ∧ v ≠ [] ∧ v.all isValChar = true

theorem flatten_good_head (toks : List (List Char))
    (h : ∀ tok ∈ toks, goodTok tok) :
    toks.flatten = [] ∨ ∃ c t, toks.flatten = c :: t ∧ isUpperAZ c = true := by
  induction toks with
  | nil => exact Or.inl rfl
  | cons tok rest ih =>
    obtain ⟨c, v, htok, hc, _, _⟩ := h tok (by simp)
    right
    rw [List.flatten_cons, htok, List.cons_append]
    exact ⟨c, v ++ rest.flatten, rfl, hc⟩

/-- Tokenizing the concatenation of well-shaped tokens recovers them. -/
theorem findTokens_flatten (toks : List (List Char))
    (h : ∀ tok ∈ toks, goodTok tok) :
    findTokens toks.flatten = toks := by
  induction toks with
  | nil => rfl
  | cons tok rest ih =>
    obtain ⟨c, v, htok, hc, hvne, hval⟩ := h tok (by simp)
    subst htok
    rw [List.flatten_cons, List.cons_append, findTokens_cons, if_pos hc]
    obtain ⟨v₀, v', rfl⟩ : ∃ v₀ v', v = v₀ :: v' := by
      cases v with
      | nil => exact absurd rfl hvne
      | cons v₀ v' => exact ⟨v₀, v', rfl⟩
    have hv₀ : isValChar v₀ = true := by
      simp only [List.all_cons, Bool.and_eq_true] at hval
      exact hval.1
    have hnotupper : isUpperAZ v₀ = false := not_isUpperAZ_of_isValChar hv₀
    have htw : ((v₀ :: v') ++ rest.flatten).takeWhile isUpperAZ = [] := by
      rw [List.cons_append, List.takeWhile_cons_of_neg (by simp [hnotupper])]
    have hdw : ((v₀ :: v') ++ rest.flatten).dropWhile isUpperAZ
        = (v₀ :: v') ++ rest.flatten := by
      rw [List.cons_append, List.dropWhile_cons_of_neg (by simp [hnotupper])]
    rw [htw, hdw]
    have hsplit : ((v₀ :: v') ++ rest.flatten).takeWhile isValChar = v₀ :: v'
        ∧ ((v₀ :: v') ++ rest.flatten).dropWhile isValChar = rest.flatten := by
      rcases flatten_good_head rest (fun tok htok => h tok (by simp [htok])) with hnil | hcons
      · rw [hnil, List.append_nil]
        exact takeWhile_all isValChar _ hval
      · obtain ⟨c₂, t₂, heq, hc₂⟩ := hcons
        rw [heq]
        exact takeWhile_append_stop isValChar _ c₂ t₂ hval
          (not_isValChar_of_isUpperAZ hc₂)
    rw [hsplit.1, hsplit.2]
    rw [if_neg (by simp)]
    rw [ih (fun tok htok => h tok (by simp [htok]))]
    rfl

/-! ### Character sets of the encoder output -/

theorem isValChar_of_isDigit {c : Char} (h : c.isDigit = true) :
    isValChar c = true := by
  simp [isValChar, h]

theorem all_val_of_all_digit {l : List Char} (h : l.all Char.isDigit = true) :
    l.all isValChar = true := by
  rw [List.all_eq_true] at h ⊢
  exact fun c hc => isValChar_of_isDigit (h c hc)

theorem intToChars_all_val (n : Int) : (intToChars n).all isValChar = true := by
  rw [intToChars]
  split
  · simp only [List.all_cons, Bool.and_eq_true]
    exact ⟨by decide, all_val_of_all_digit (natToChars_all_digits _)⟩
  · exact all_val_of_all_digit (natToChars_all_digits _)

theorem intToChars_ne_nil (n : Int) : intToChars n ≠ [] := by
  rw [intToChars]
  split
  · simp
  · exact natToChars_ne_nil _

theorem ratFixed6_all_val (q : ℚ) : (ratFixed6 q).all isValChar = true := by
  rw [ratFixed6]
  have hsign : (if q < 0 then ['-'] else ['+']).all isValChar = true := by
    split <;> decide
  simp [List.all_append, List.all_cons, hsign,
    all_val_of_all_digit (natToChars_all_digits ((rnd6 q).natAbs / 1000000)),
    all_val_of_all_digit (padZeros6_all_digits
      (natToChars_all_digits ((rnd6 q).natAbs % 1000000))),
    (by decide : isValChar '.' = true)]

theorem ratFixed6_ne_nil (q : ℚ) : ratFixed6 q ≠ [] := by
  rw [ratFixed6]
  split <;> simp

theorem ne_space_of_isValChar {c : Char} (h : isValChar c = true) : c ≠ ' ' := by
  apply ne_of_toNat_ne
  have h32 : (' ' : Char).toNat = 32 := by decide
  rw [h32]
  rcases toNat_of_isValChar h with h' | h' | h' | h' <;> omega

theorem ne_space_of_isUpperAZ {c : Char} (h : isUpperAZ c = true) : c ≠ ' ' := by
  apply ne_of_toNat_ne
  have h32 : (' ' : Char).toNat = 32 := by decide
  rw [h32]
  have := toNat_of_isUpperAZ h
  omega

theorem letterCols_upper : ∀ c ∈ letterCols, isUpperAZ c = true := by decide

theorem encTok_good (r : Tool) (c : Char) (hc : c ∈ letterCols) :
    goodTok (encTok r c) := by
  rw [encTok]
  split
  · exact ⟨c, _, rfl, letterCols_upper c hc, intToChars_ne_nil _, intToChars_all_val _⟩
  · exact ⟨c, _, rfl, letterCols_upper c hc, ratFixed6_ne_nil _, ratFixed6_all_val _⟩

/-! ### Removing the padding recovers the unpadded tokens -/

theorem removeSpaces_eq_self {s : List Char} (h : s.all isValChar = true) :
    removeSpaces s = s := by
  rw [removeSpaces, List.filter_eq_self]
  intro a ha
  rw [List.all_eq_true] at h
  simpa using ne_space_of_isValChar (h a ha)

theorem removeSpaces_padRight {s : List Char} (w : Nat)
    (h : s.all isValChar = true) : removeSpaces (padRight s w) = s := by
  rw [padRight, removeSpaces, List.filter_append]
  rw [show List.filter (fun c => c ≠ ' ') s = removeSpaces s from rfl,
    removeSpaces_eq_self h]
  have hrep : List.filter (fun c => (c ≠ ' ' : Bool)) (List.replicate (w - s.length) ' ') = [] := by
    induction (w - s.length) with
    | zero => rfl
    | succ k ih => simpa [List.replicate_succ, List.filter_cons] using ih
  rw [hrep, List.append_nil]

/-- The padded data-row tokens of `rowLine`. -/
def rowToks (r : Tool) (cols : List Char) : List (List Char) :=
  cols.filterMap (fun c => if c = 'R' then none else some (formatTok r c))

theorem removeSpaces_formatTok (r : Tool) (c : Char) (hc : c ∈ letterCols) :
    removeSpaces (formatTok r c) = encTok r c := by
  rw [formatTok, encTok]
  have hcsp : (c ≠ ' ' : Bool) = true := by
    simpa using ne_space_of_isUpperAZ (letterCols_upper c hc)
  split
  · rw [removeSpaces, List.filter_cons, if_pos hcsp]
    rw [show List.filter (fun c => c ≠ ' ') (padRight (intToChars (getColI r c))
      INT_COLUMN_WIDTH) = removeSpaces (padRight (intToChars (getColI r c))
      INT_COLUMN_WIDTH) from rfl, removeSpaces_padRight _ (intToChars_all_val _)]
  · rw [removeSpaces, List.filter_cons, if_pos hcsp]
    rw [show List.filter (fun c => c ≠ ' ') (padRight (ratFixed6 (getColF r c))
      FLOAT_COLUMN_WIDTH) = removeSpaces (padRight (ratFixed6 (getColF r c))
      FLOAT_COLUMN_WIDTH) from rfl, removeSpaces_padRight _ (ratFixed6_all_val _)]

theorem filterMap_congr' {α β : Type} (f g : α → Option β) (l : List α)
    (h : ∀ a ∈ l, f a = g a) : l.filterMap f = l.filterMap g := by
  induction l with
  | nil => rfl
  | cons a as ih =>
    rw [List.filterMap_cons, List.filterMap_cons, h a (by simp),
      ih (fun a ha => h a (by simp [ha]))]

theorem removeSpaces_flatten (L : List (List Char)) :
    removeSpaces L.flatten = (L.map removeSpaces).flatten := by
  induction L with
  | nil => rfl
  | cons x xs ih =>
    rw [List.flatten_cons, removeSpaces, List.filter_append, List.map_cons,
      List.flatten_cons]
    rw [show List.filter (fun c => c ≠ ' ') xs.flatten = removeSpaces xs.flatten from rfl, ih]
    rfl

theorem removeSpaces_rowToks (r : Tool) (cols : List Char)
    (hcols : ∀ c ∈ cols, c ∈ letterCols) :
    removeSpaces (rowToks r cols).flatten = (encToks r cols).flatten := by
  rw [removeSpaces_flatten, rowToks, List.map_filterMap]
  rw [filterMap_congr' _ (fun c => if c = 'R' then none else some (encTok r c)) cols]
  · rfl
  · intro c hcmem
    by_cases hcR : c = 'R'
    · simp [hcR]
    · rw [if_neg hcR,
        show Option.map removeSpaces (some (formatTok r c))
          = some (removeSpaces (formatTok r c)) from rfl,
        removeSpaces_formatTok r c (hcols c hcmem), if_neg hcR]

/-! ### Character classes of a padded data row -/

def rowDataChar (c : Char) : Bool := isUpperAZ c || isValChar c || c = ' '

theorem rowDataChar_props {x : Char} (h : rowDataChar x = true) :
    x ≠ ';' ∧ x ≠ '\n' ∧ (isPyWS x = true → x = ' ') := by
  rw [rowDataChar, Bool.or_eq_true, Bool.or_eq_true] at h
  rcases h with (hu | hv) | hs
  · exact ⟨ne_semi_of_isUpperAZ hu, ne_nl_of_isUpperAZ hu,
      fun hw => absurd hw (by simp [isPyWS_of_isUpperAZ hu])⟩
  · exact ⟨ne_semi_of_isValChar hv, ne_nl_of_isValChar hv,
      fun hw => absurd hw (by simp [isPyWS_of_isValChar hv])⟩
  · simp only [decide_eq_true_eq] at hs
    subst hs
    exact ⟨by decide, by decide, fun _ => rfl⟩

theorem formatTok_chars (r : Tool) (c : Char) (hc : c ∈ letterCols) :
    ∀ x ∈ formatTok r c, rowDataChar x = true := by
  have hpad : ∀ (s : List Char), s.all isValChar = true → ∀ (w : Nat),
      ∀ x ∈ (c :: padRight s w), rowDataChar x = true := by
    intro s hs w x hmem
    rcases List.mem_cons.mp hmem with rfl | hmem'
    · simp [rowDataChar, letterCols_upper _ hc]
    · rw [padRight] at hmem'
      rcases List.mem_append.mp hmem' with hmem'' | hmem''
      · rw [List.all_eq_true] at hs
        simp [rowDataChar, hs x hmem'']
      · have hx' : x = ' ' := List.eq_of_mem_replicate hmem''
        simp [rowDataChar, hx']
  intro x hx
  rw [formatTok] at hx
  split at hx
  · exact hpad _ (intToChars_all_val _) _ x hx
  · exact hpad _ (ratFixed6_all_val _) _ x hx

theorem rowToks_flatten_chars (r : Tool) (cols : List Char)
    (hcols : ∀ c ∈ cols, c ∈ letterCols) :
    ∀ x ∈ (rowToks r cols).flatten, rowDataChar x = true := by
  intro x hx
  rw [List.mem_flatten] at hx
  obtain ⟨tok, htok, hxtok⟩ := hx
  rw [rowToks, List.mem_filterMap] at htok
  obtain ⟨c, hcmem, hceq⟩ := htok
  by_cases hcR : c = 'R'
  · rw [if_pos hcR] at hceq
    exact absurd hceq (by simp)
  · rw [if_neg hcR] at hceq
    injection hceq with hceq
    subst hceq
    exact formatTok_chars r c (hcols c hcmem) x hxtok

/-! ### Field characterization of the decode fold -/

theorem decCol_getColI (r t : Tool) (c c' : Char) (hc : c ∈ letterCols)
    (h' : isIntCol c' = true) :
    getColI (decCol r t c) c' = if c = c' then getColI r c' else getColI t c' := by
  have h'' : (c' = 'T' ∨ c' = 'P') ∨ c' = 'Q' := by
    simpa [isIntCol] using h'
  rcases h'' with (rfl | rfl) | rfl <;> fin_cases hc <;>
    simp +decide [decCol, setColInt, setColFloat, getColI, isIntCol]

theorem decCol_getColF (r t : Tool) (c c' : Char) (hc : c ∈ letterCols)
    (h' : isFloatCol c' = true) :
    getColF (decCol r t c) c' = if c = c' then rat6 (getColF r c') else getColF t c' := by
  have h'' : ((((((((((c' = 'X' ∨ c' = 'Y') ∨ c' = 'Z') ∨ c' = 'A') ∨ c' = 'B') ∨
      c' = 'C') ∨ c' = 'U') ∨ c' = 'V') ∨ c' = 'W') ∨ c' = 'D') ∨ c' = 'I') ∨
      c' = 'J' := by
    simpa [isFloatCol] using h'
  rcases h'' with ((((((((((rfl | rfl) | rfl) | rfl) | rfl) | rfl) | rfl) | rfl) | rfl)
    | rfl) | rfl) | rfl <;>
    fin_cases hc <;>
    simp +decide [decCol, setColInt, setColFloat, getColF, getColI, isIntCol]

theorem decCol_R (r t : Tool) (c : Char) (hc : c ∈ letterCols) :
    (decCol r t c).R = t.R := by
  fin_cases hc <;>
    simp +decide [decCol, setColInt, setColFloat, getColI, getColF, isIntCol]

theorem foldl_decCol_getColI (r : Tool) (cols : List Char)
    (hcols : ∀ c ∈ cols, c ∈ letterCols) (c' : Char) (h' : isIntCol c' = true) :
    ∀ t, getColI (cols.foldl (decCol r) t) c'
      = if c' ∈ cols then getColI r c' else getColI t c' := by
  induction cols with
  | nil => intro t; simp
  | cons c cs ih =>
    intro t
    rw [List.foldl_cons, ih (fun a ha => hcols a (by simp [ha]))]
    by_cases hmem : c' ∈ cs
    · simp [hmem]
    · rw [if_neg hmem, decCol_getColI r t c c' (hcols c (by simp)) h']
      by_cases hcc : c = c'
      · subst hcc
        simp
      · have hnotmem : c' ∉ c :: cs := by
          rw [List.mem_cons]
          rintro (rfl | hx)
          · exact hcc rfl
          · exact hmem hx
        rw [if_neg hcc, if_neg hnotmem]

theorem foldl_decCol_getColF (r : Tool) (cols : List Char)
    (hcols : ∀ c ∈ cols, c ∈ letterCols) (c' : Char) (h' : isFloatCol c' = true) :
    ∀ t, getColF (cols.foldl (decCol r) t) c'
      = if c' ∈ cols then rat6 (getColF r c') else getColF t c' := by
  induction cols with
  | nil => intro t; simp
  | cons c cs ih =>
    intro t
    rw [List.foldl_cons, ih (fun a ha => hcols a (by simp [ha]))]
    by_cases hmem : c' ∈ cs
    · simp [hmem]
    · rw [if_neg hmem, decCol_getColF r t c c' (hcols c (by simp)) h']
      by_cases hcc : c = c'
      · subst hcc
        simp
      · have hnotmem : c' ∉ c :: cs := by
          rw [List.mem_cons]
          rintro (rfl | hx)
          · exact hcc rfl
          · exact hmem hx
        rw [if_neg hcc, if_neg hnotmem]

theorem foldl_decCol_R (r : Tool) (cols : List Char)
    (hcols : ∀ c ∈ cols, c ∈ letterCols) :
    ∀ t, (cols.foldl (decCol r) t).R = t.R := by
  induction cols with
  | nil => intro t; rfl
  | cons c cs ih =>
    intro t
    rw [List.foldl_cons, ih (fun a ha => hcols a (by simp [ha])),
      decCol_R r t c (hcols c (by simp))]

/-! ### Strip-stability facts and the per-row decode lemma -/

theorem stripStable_last (l : List Char) (h : pyStrip l = l) :
    ∀ c, l.getLast? = some c → isPyWS c = false := by
  intro c hc
  by_contra hws
  rw [Bool.not_eq_false] at hws
  have hlne : l ≠ [] := by
    rintro rfl
    simp at hc
  by_cases hdn : l.dropWhile isPyWS = []
  · have hnil : pyStrip l = [] := by
      rw [pyStrip, hdn]
      rfl
    rw [h] at hnil
    exact hlne hnil
  · have hld : l.getLast? = (l.dropWhile isPyWS).getLast? := by
      conv_lhs => rw [← List.takeWhile_append_dropWhile (p := isPyWS) (l := l)]
      exact List.getLast?_append_of_ne_nil _ hdn
    have hdc : (l.dropWhile isPyWS).getLast? = some c := by
      rw [← hld]
      exact hc
    have hrev : (l.dropWhile isPyWS).reverse.head? = some c := by
      rw [List.head?_reverse, hdc]
    obtain ⟨a, t, ht⟩ : ∃ a t, (l.dropWhile isPyWS).reverse = a :: t :=
      List.exists_cons_of_ne_nil (by simpa using hdn)
    have hac : a = c := by
      rw [ht] at hrev
      injection hrev
    subst hac
    have hlen1 : (pyStrip l).length
        = ((l.dropWhile isPyWS).reverse.dropWhile isPyWS).length := by
      rw [pyStrip, List.length_reverse]
    have hlen2 : ((l.dropWhile isPyWS).reverse.dropWhile isPyWS).length ≤ t.length := by
      rw [ht, List.dropWhile_cons_of_pos (by simp [hws])]
      exact length_dropWhile_le' _ _
    have hlen3 : t.length + 1 = (l.dropWhile isPyWS).length := by
      have := congrArg List.length ht
      simp at this
      omega
    have hlen4 := length_dropWhile_le' isPyWS l
    have hfinal : (pyStrip l).length < l.length := by omega
    rw [h] at hfinal
    omega

theorem pyStrip_mem_subset (l : List Char) : ∀ x ∈ pyStrip l, x ∈ l := by
  intro x hx
  rw [pyStrip] at hx
  rw [List.mem_reverse] at hx
  have h1 := List.dropWhile_subset (p := isPyWS) hx
  rw [List.mem_reverse] at h1
  exact List.dropWhile_subset (p := isPyWS) h1

theorem stripEnd_mem_subset (l : List Char) : ∀ x ∈ stripEnd l, x ∈ l := by
  intro x hx
  rw [stripEnd, List.mem_reverse] at hx
  have h1 := List.dropWhile_subset (p := isPyWS) hx
  rw [List.mem_reverse] at h1
  exact h1

theorem rowToks_flatten_head (r : Tool) (cols : List Char)
    (hcols : ∀ c ∈ cols, c ∈ letterCols) (hT : 'T' ∈ cols) :
    ∃ c₀ rest₀, (rowToks r cols).flatten = c₀ :: rest₀ ∧ isUpperAZ c₀ = true := by
  have hne : rowToks r cols ≠ [] := by
    rw [rowToks]
    intro hnil
    have := List.filterMap_eq_nil_iff.mp hnil 'T' hT
    simp at this
  obtain ⟨tok₀, toks', htoks⟩ := List.exists_cons_of_ne_nil hne
  have htok₀ : tok₀ ∈ rowToks r cols := by
    rw [htoks]
    simp
  rw [rowToks, List.mem_filterMap] at htok₀
  obtain ⟨c, hcmem, hceq⟩ := htok₀
  by_cases hcR : c = 'R'
  · rw [if_pos hcR] at hceq
    exact absurd hceq (by simp)
  · rw [if_neg hcR] at hceq
    injection hceq with hceq
    obtain ⟨v, hv⟩ : ∃ v, tok₀ = c :: v := by
      rw [← hceq, formatTok]
      split
      · exact ⟨_, rfl⟩
      · exact ⟨_, rfl⟩
    refine ⟨c, v ++ toks'.flatten, ?_, letterCols_upper c (hcols c hcmem)⟩
    rw [htoks, List.flatten_cons, hv, List.cons_append]

theorem encToks_good (r : Tool) (cols : List Char)
    (hcols : ∀ c ∈ cols, c ∈ letterCols) :
    ∀ tok ∈ encToks r cols, goodTok tok := by
  intro tok htok
  rw [encToks, List.mem_filterMap] at htok
  obtain ⟨c, hcmem, hceq⟩ := htok
  by_cases hcR : c = 'R'
  · rw [if_pos hcR] at hceq
    exact absurd hceq (by simp)
  · rw [if_neg hcR] at hceq
    injection hceq with hceq
    rw [← hceq]
    exact encTok_good r c (hcols c hcmem)

/-- The record a decoded data row yields: the selected columns of `r`
(floats rounded to six decimal places), defaults elsewhere, and the remark
carried through the comment. -/
def decTool (r : Tool) (cols : List Char) : Tool :=
  { cols.foldl (decCol r) DEFAULT_TOOL with R := r.R }

theorem findTokens_data (r : Tool) (cols : List Char)
    (hcols : ∀ c ∈ cols, c ∈ letterCols) :
    findTokens (removeSpaces (rowToks r cols).flatten) = encToks r cols := by
  rw [removeSpaces_rowToks r cols hcols]
  exact findTokens_flatten _ (encToks_good r cols hcols)

/-- Decoding a (stripped) saved data row yields exactly `decTool`. -/
theorem parseLine_rowLine (r : Tool) (cols : List Char)
    (hcols : ∀ c ∈ cols, c ∈ letterCols) (hT : 'T' ∈ cols)
    (hR : pyStrip r.R = r.R) :
    (parseLine (pyStrip (rowLine cols r))).tool = decTool r cols := by
  obtain ⟨c₀, rest₀, hds, hc₀⟩ := rowToks_flatten_head r cols hcols hT
  have hchars := rowToks_flatten_chars r cols hcols
  have hnosemi : ';' ∉ (rowToks r cols).flatten := by
    intro hmem
    have := (rowDataChar_props (hchars ';' hmem)).1
    exact this rfl
  have hwssp : ∀ x ∈ (rowToks r cols).flatten, isPyWS x = true → x = ' ' :=
    fun x hx => (rowDataChar_props (hchars x hx)).2.2
  by_cases hRe : r.R = []
  · have hline : rowLine cols r = (rowToks r cols).flatten := by
      rw [rowLine, hRe]
      simp [rowToks]
    have hstrip : pyStrip (rowLine cols r) = c₀ :: stripEnd rest₀ := by
      rw [hline, hds]
      exact pyStrip_cons_not_ws c₀ rest₀ (isPyWS_of_isUpperAZ hc₀)
    have hsub : ∀ x ∈ (c₀ :: stripEnd rest₀), x ∈ (rowToks r cols).flatten := by
      intro x hx
      rcases List.mem_cons.mp hx with rfl | hx'
      · rw [hds]
        simp
      · rw [hds]
        exact List.mem_cons_of_mem _ (stripEnd_mem_subset _ x hx')
    have hnosemi' : ';' ∉ (c₀ :: stripEnd rest₀) := fun hmem => hnosemi (hsub ';' hmem)
    rw [parseLine, hstrip]
    simp only [pyPartition_no_sep ';' _ hnosemi']
    have hrs : removeSpaces (c₀ :: stripEnd rest₀)
        = removeSpaces ((rowToks r cols).flatten) := by
      rw [← hstrip, hline, removeSpaces_pyStrip _ hwssp]
    rw [hrs, findTokens_data r cols hcols, applyItems_encToks r cols hcols]
    rw [decTool, hRe]
    rfl
  · have hline : rowLine cols r
        = (rowToks r cols).flatten ++ ';' :: ' ' :: r.R := by
      rw [rowLine]
      simp [rowToks, hRe]
    have hlast : ∀ c, (rowLine cols r).getLast? = some c → isPyWS c = false := by
      intro c hc
      rw [hline, List.getLast?_append_of_ne_nil _ (by simp),
        show (';' :: ' ' :: r.R).getLast? = r.R.getLast? from
          List.getLast?_append_of_ne_nil [';', ' '] hRe] at hc
      exact stripStable_last r.R hR c hc
    have hhead : ∀ c, (rowLine cols r).head? = some c → isPyWS c = false := by
      intro c hc
      rw [hline, hds] at hc
      simp at hc
      rw [← hc]
      exact isPyWS_of_isUpperAZ hc₀
    have hstrip : pyStrip (rowLine cols r) = rowLine cols r :=
      pyStrip_eq_self _ hhead hlast
    rw [parseLine, hstrip, hline]
    simp only [pyPartition_append_sep ';' _ _ hnosemi]
    rw [findTokens_data r cols hcols, applyItems_encToks r cols hcols]
    rw [show pyStrip (' ' :: r.R) = pyStrip r.R from pyStrip_cons_ws _ _ (by decide), hR]
    rfl

/-! ### Saved-line shapes: newline-freedom and marker position -/

theorem joinSpace_no_nl (L : List (List Char)) (h : ∀ s ∈ L, ('\n') ∉ s) :
    ('\n') ∉ joinSpace L := by
  induction L with
  | nil => simp [joinSpace]
  | cons x xs ih =>
    cases xs with
    | nil => simpa [joinSpace] using h x (by simp)
    | cons y rest =>
      rw [joinSpace]
      intro hmem
      rcases List.mem_append.mp hmem with hx | hx
      · exact h x (by simp) hx
      · rcases List.mem_cons.mp hx with hx' | hx'
        · exact absurd hx'.symm (by decide)
        · exact ih (fun s hs => h s (by simp [List.mem_cons.mp hs])) hx'

theorem COLUMN_LABELS_no_nl (c : Char) : ('\n') ∉ COLUMN_LABELS c := by
  intro hmem
  rw [COLUMN_LABELS] at hmem
  by_cases h1 : c = 'A'
  · rw [if_pos h1] at hmem
    revert hmem
    decide
  · rw [if_neg h1] at hmem
    by_cases h2 : c = 'B'
    · rw [if_pos h2] at hmem
      revert hmem
      decide
    · rw [if_neg h2] at hmem
      by_cases h3 : c = 'C'
      · rw [if_pos h3] at hmem
        revert hmem
        decide
      · rw [if_neg h3] at hmem
        by_cases h4 : c = 'D'
        · rw [if_pos h4] at hmem
          revert hmem
          decide
        · rw [if_neg h4] at hmem
          by_cases h5 : c = 'I'
          · rw [if_pos h5] at hmem
            revert hmem
            decide
          · rw [if_neg h5] at hmem
            by_cases h6 : c = 'J'
            · rw [if_pos h6] at hmem
              revert hmem
              decide
            · rw [if_neg h6] at hmem
              by_cases h7 : c = 'P'
              · rw [if_pos h7] at hmem
                revert hmem
                decide
              · rw [if_neg h7] at hmem
                by_cases h8 : c = 'Q'
                · rw [if_pos h8] at hmem
                  revert hmem
                  decide
                · rw [if_neg h8] at hmem
                  by_cases h9 : c = 'R'
                  · rw [if_pos h9] at hmem
                    revert hmem
                    decide
                  · rw [if_neg h9] at hmem
                    by_cases h10 : c = 'T'
                    · rw [if_pos h10] at hmem
                      revert hmem
                      decide
                    · rw [if_neg h10] at hmem
                      by_cases h11 : c = 'U'
                      · rw [if_pos h11] at hmem
                        revert hmem
                        decide
                      · rw [if_neg h11] at hmem
                        by_cases h12 : c = 'V'
                        · rw [if_pos h12] at hmem
                          revert hmem
                          decide
                        · rw [if_neg h12] at hmem
                          by_cases h13 : c = 'W'
                          · rw [if_pos h13] at hmem
                            revert hmem
                            decide
                          · rw [if_neg h13] at hmem
                            by_cases h14 : c = 'X'
                            · rw [if_pos h14] at hmem
                              revert hmem
                              decide
                            · rw [if_neg h14] at hmem
                              by_cases h15 : c = 'Y'
                              · rw [if_pos h15] at hmem
                                revert hmem
                                decide
                              · rw [if_neg h15] at hmem
                                by_cases h16 : c = 'Z'
                                · rw [if_pos h16] at hmem
                                  revert hmem
                                  decide
                                · rw [if_neg h16] at hmem
                                  simp at hmem

theorem padRight_no_nl (s : List Char) (w : Nat) (h : ('\n') ∉ s) :
    ('\n') ∉ padRight s w := by
  rw [padRight]
  intro hmem
  rcases List.mem_append.mp hmem with hx | hx
  · exact h hx
  · have := List.eq_of_mem_replicate hx
    exact absurd this (by decide)

theorem titleLine_no_nl (cols selfCols : List Char) :
    ('\n') ∉ titleLine cols selfCols := by
  rw [titleLine]
  intro hmem
  rcases List.mem_cons.mp hmem with hx | hx
  · exact absurd hx.symm (by decide)
  · refine absurd hx (joinSpace_no_nl _ ?_)
    intro s hs
    rcases List.mem_append.mp hs with hs' | hs'
    · rw [List.mem_filterMap] at hs'
      obtain ⟨c, _, hceq⟩ := hs'
      by_cases hcR : c = 'R'
      · rw [if_pos hcR] at hceq
        exact absurd hceq (by simp)
      · rw [if_neg hcR] at hceq
        injection hceq with hceq
        rw [← hceq]
        exact padRight_no_nl _ _ (COLUMN_LABELS_no_nl c)
    · have : s = "Remark".toList := by simpa using hs'
      rw [this]
      decide

theorem rowLine_no_nl (r : Tool) (cols : List Char)
    (hcols : ∀ c ∈ cols, c ∈ letterCols) (hRnl : ('\n') ∉ r.R) :
    ('\n') ∉ rowLine cols r := by
  rw [rowLine]
  intro hmem
  rcases List.mem_append.mp hmem with hx | hx
  · have := (rowDataChar_props (rowToks_flatten_chars r cols hcols '\n' hx)).2.1
    exact this rfl
  · split at hx
    · rcases List.mem_cons.mp hx with hx' | hx'
      · exact absurd hx'.symm (by decide)
      · rcases List.mem_cons.mp hx' with hx'' | hx''
        · exact absurd hx''.symm (by decide)
        · exact hRnl hx''
    · simp at hx

theorem titleLine_startsSemi (cols selfCols : List Char) :
    startsSemi (pyStrip (titleLine cols selfCols)) = true := by
  rw [titleLine, pyStrip_cons_not_ws _ _ (by decide), startsSemi]
  rfl

theorem rowLine_not_startsSemi (r : Tool) (cols : List Char)
    (hcols : ∀ c ∈ cols, c ∈ letterCols) (hT : 'T' ∈ cols)
    (hR : pyStrip r.R = r.R) :
    startsSemi (pyStrip (rowLine cols r)) = false := by
  obtain ⟨c₀, rest₀, hds, hc₀⟩ := rowToks_flatten_head r cols hcols hT
  by_cases hRe : r.R = []
  · have hline : rowLine cols r = (rowToks r cols).flatten := by
      rw [rowLine, hRe]
      simp [rowToks]
    rw [hline, hds, pyStrip_cons_not_ws _ _ (isPyWS_of_isUpperAZ hc₀), startsSemi]
    simpa using fun h => (ne_semi_of_isUpperAZ hc₀) h
  · have hline : rowLine cols r
        = (rowToks r cols).flatten ++ ';' :: ' ' :: r.R := by
      rw [rowLine]
      simp [rowToks, hRe]
    rw [hline, hds, List.cons_append,
      pyStrip_cons_not_ws _ _ (isPyWS_of_isUpperAZ hc₀), startsSemi]
    simpa using fun h => (ne_semi_of_isUpperAZ hc₀) h

theorem lastSemiIdx_none (L : List (List Char))
    (h : ∀ l ∈ L, startsSemi l = false) : lastSemiIdx L = none := by
  induction L with
  | nil => rfl
  | cons l rest ih =>
    rw [lastSemiIdx, ih (fun l' hl' => h l' (by simp [hl']))]
    rw [h l (by simp)]
    rfl

theorem lastSemiIdx_append (A : List (List Char)) (t : List Char)
    (B : List (List Char)) (ht : startsSemi t = true)
    (hB : ∀ b ∈ B, startsSemi b = false) :
    lastSemiIdx (A ++ t :: B) = some A.length := by
  induction A with
  | nil =>
    rw [List.nil_append, lastSemiIdx, lastSemiIdx_none B hB, ht]
    rfl
  | cons a A' ih =>
    rw [List.cons_append, lastSemiIdx, ih]
    simp

/-! ### Lookup, keys and the saved-text line round trip -/

theorem lookup_some_mem (tbl : ToolTable) (k : Int) (t : Tool)
    (h : tbl.lookup k = some t) : (k, t) ∈ tbl := by
  induction tbl with
  | nil => simp [List.lookup] at h
  | cons p rest ih =>
    obtain ⟨a, b⟩ := p
    rw [lookup_cons] at h
    by_cases hk : k = a
    · rw [if_pos hk] at h
      injection h with h
      subst hk
      subst h
      simp
    · rw [if_neg hk] at h
      exact List.mem_cons_of_mem _ (ih h)

theorem mem_keys_of_lookup_some (tbl : ToolTable) (k : Int) (t : Tool)
    (h : tbl.lookup k = some t) : k ∈ tableKeys tbl := by
  rw [tableKeys, List.mem_map]
  exact ⟨(k, t), lookup_some_mem tbl k t h, rfl⟩

theorem lookup_isSome_of_mem_keys (tbl : ToolTable) (k : Int)
    (h : k ∈ tableKeys tbl) : (tbl.lookup k).isSome = true := by
  induction tbl with
  | nil => simp [tableKeys] at h
  | cons p rest ih =>
    obtain ⟨a, b⟩ := p
    rw [lookup_cons]
    by_cases hk : k = a
    · rw [if_pos hk]
      rfl
    · rw [if_neg hk]
      apply ih
      simp only [tableKeys, List.map_cons, List.mem_cons] at h
      rcases h with h | h
      · exact absurd h hk
      · exact h

theorem intercalate_concat (s t : List Char) :
    ∀ (Ls : List (List Char)), Ls ≠ [] →
      List.intercalate s (Ls ++ [t]) = List.intercalate s Ls ++ s ++ t := by
  intro Ls
  induction Ls with
  | nil => intro h; exact absurd rfl h
  | cons x xs ih =>
    intro _
    cases xs with
    | nil =>
      simp [List.intercalate, List.intersperse_cons_cons,
        List.intersperse_singleton]
    | cons y ys =>
      have hrec := ih (by simp)
      simp only [List.cons_append, List.intercalate,
        List.intersperse_cons_cons, List.flatten_cons] at hrec ⊢
      rw [hrec]
      simp [List.append_assoc]

theorem joinLines_eq (Ls : List (List Char)) (h : Ls ≠ []) :
    joinLines Ls = List.intercalate ['\n'] (Ls ++ [[]]) := by
  rw [joinLines, intercalate_concat _ _ Ls h]
  simp

theorem splitLines_joinLines (Ls : List (List Char)) (hne : Ls ≠ [])
    (hnl : ∀ l ∈ Ls, ('\n') ∉ l) : splitLines (joinLines Ls) = Ls := by
  have hsplit : (joinLines Ls).splitOn '\n' = Ls ++ [[]] := by
    rw [joinLines_eq Ls hne]
    refine List.splitOn_intercalate _ '\n' ?_ (by simp)
    intro l hl
    rcases List.mem_append.mp hl with h | h
    · exact hnl l h
    · have hl0 : l = [] := by simpa using h
      rw [hl0]
      simp
  have htext : joinLines Ls ≠ [] := by
    rw [joinLines]
    simp
  simp only [splitLines, if_neg htext, hsplit, List.getLast?_concat,
    List.dropLast_concat, if_pos]

theorem saveHeaderLines_mem (origHeader templateLines : List (List Char)) :
    ∀ l ∈ saveHeaderLines origHeader templateLines,
      l ∈ origHeader ∨ l ∈ templateLines ∨ l = [] := by
  intro l hl
  simp only [saveHeaderLines] at hl
  split at hl
  · split at hl
    · rcases List.mem_append.mp hl with h | h
      · exact Or.inl h
      · have h' : l ∈ (if templateLines ≠ [] then templateLines ++ [[]] else []) :=
          List.drop_subset _ _ h
        split at h'
        · rcases List.mem_append.mp h' with h'' | h''
          · exact Or.inr (Or.inl h'')
          · exact Or.inr (Or.inr (by simpa using h''))
        · simp at h'
    · exact Or.inl hl
  · split at hl
    · rcases List.mem_append.mp hl with h | h
      · exact Or.inr (Or.inl h)
      · exact Or.inr (Or.inr (by simpa using h))
    · simp at hl

theorem saveToolTableLines_no_nl (origHeader templateLines : List (List Char))
    (tbl : ToolTable) (cols selfCols : List Char)
    (hcols : ∀ c ∈ cols, c ∈ letterCols)
    (hR : ∀ p ∈ tbl, ('\n') ∉ p.2.R)
    (hH : ∀ l ∈ origHeader, ('\n') ∉ l)
    (hTpl : ∀ l ∈ templateLines, ('\n') ∉ l) :
    ∀ l ∈ saveToolTableLines origHeader templateLines tbl cols selfCols,
      ('\n') ∉ l := by
  intro l hl
  rw [saveToolTableLines] at hl
  rcases List.mem_append.mp hl with h | h
  · rcases saveHeaderLines_mem origHeader templateLines l h with h' | h' | h'
    · exact hH l h'
    · exact hTpl l h'
    · rw [h']
      simp
  · rcases List.mem_cons.mp h with h' | h'
    · rw [h']
      exact titleLine_no_nl cols selfCols
    · rw [List.mem_filterMap] at h'
      obtain ⟨k, _, hk⟩ := h'
      rcases hlk : tbl.lookup k with _ | t
      · rw [hlk] at hk
        simp at hk
      · rw [hlk] at hk
        have hleq : l = rowLine cols t := by simpa using hk.symm
        rw [hleq]
        exact rowLine_no_nl t cols hcols (hR (k, t) (lookup_some_mem tbl k t hlk))

theorem drop_append_cons_length (A : List (List Char)) (t : List Char)
    (B : List (List Char)) : (A ++ t :: B).drop (A.length + 1) = B := by
  rw [show A ++ t :: B = (A ++ [t]) ++ B by simp,
    show A.length + 1 = (A ++ [t]).length by simp]
  exact List.drop_left _ _

theorem lastSemiIdx_saveLines (origHeader templateLines : List (List Char))
    (tbl : ToolTable) (cols selfCols : List Char)
    (hcols : ∀ c ∈ cols, c ∈ letterCols) (hT : 'T' ∈ cols)
    (hR : ∀ p ∈ tbl, pyStrip p.2.R = p.2.R) :
    lastSemiIdx
        ((saveToolTableLines origHeader templateLines tbl cols selfCols).map
          pyStrip)
      = some (saveHeaderLines origHeader templateLines).length := by
  rw [saveToolTableLines, List.map_append, List.map_cons]
  rw [show (saveHeaderLines origHeader templateLines).length
      = ((saveHeaderLines origHeader templateLines).map pyStrip).length by
    rw [List.length_map]]
  apply lastSemiIdx_append
  · exact titleLine_startsSemi cols selfCols
  · intro b hb
    rw [List.mem_map] at hb
    obtain ⟨l', hl', rfl⟩ := hb
    rw [List.mem_filterMap] at hl'
    obtain ⟨k, _, hk⟩ := hl'
    rcases hlk : tbl.lookup k with _ | t
    · rw [hlk] at hk
      simp at hk
    · rw [hlk] at hk
      have hleq : l' = rowLine cols t := by simpa using hk.symm
      rw [hleq]
      exact rowLine_not_startsSemi t cols hcols hT
        (hR (k, t) (lookup_some_mem tbl k t hlk))

theorem loadToolTableLines_table (prevHeader rawLines : List (List Char))
    (i : Nat) (h : lastSemiIdx (rawLines.map pyStrip) = some i) :
    (loadToolTableLines prevHeader rawLines).table
      = (loadRows ((rawLines.map pyStrip).drop (i + 1))).1 := by
  simp only [loadToolTableLines]
  rw [h]

/-! ### The decoded record of a saved row, and the row-loop round trip -/

theorem decTool_T (r : Tool) (cols : List Char)
    (hcols : ∀ c ∈ cols, c ∈ letterCols) (hT : 'T' ∈ cols) :
    (decTool r cols).T = r.T := by
  have h1 : (decTool r cols).T
      = getColI (cols.foldl (decCol r) DEFAULT_TOOL) 'T' := rfl
  rw [h1, foldl_decCol_getColI r cols hcols 'T' (by decide) DEFAULT_TOOL,
    if_pos hT]
  rfl

theorem decTool_getColI (r : Tool) (cols : List Char)
    (hcols : ∀ c ∈ cols, c ∈ letterCols) (c : Char) (hci : isIntCol c = true)
    (hc : c ∈ cols) : getColI (decTool r cols) c = getColI r c := by
  have h1 : getColI (decTool r cols) c
      = getColI (cols.foldl (decCol r) DEFAULT_TOOL) c := rfl
  rw [h1, foldl_decCol_getColI r cols hcols c hci DEFAULT_TOOL, if_pos hc]

theorem decTool_getColF (r : Tool) (cols : List Char)
    (hcols : ∀ c ∈ cols, c ∈ letterCols) (c : Char) (hcf : isFloatCol c = true)
    (hc : c ∈ cols) : getColF (decTool r cols) c = rat6 (getColF r c) := by
  have h1 : getColF (decTool r cols) c
      = getColF (cols.foldl (decCol r) DEFAULT_TOOL) c := rfl
  rw [h1, foldl_decCol_getColF r cols hcols c hcf DEFAULT_TOOL, if_pos hc]

/-- Every stripped saved data row over keys `ks` parses to the `decTool`
of its tool, and its parsed tool number is its key. -/
theorem parseRow_T (tbl : ToolTable) (cols : List Char)
    (hcols : ∀ c ∈ cols, c ∈ letterCols) (hT : 'T' ∈ cols)
    (hR : ∀ p ∈ tbl, pyStrip p.2.R = p.2.R)
    (hTk : ∀ p ∈ tbl, p.2.T = p.1) (ks : List Int) :
    ∀ l ∈ (ks.filterMap
        (fun k => (tbl.lookup k).map (fun t => rowLine cols t))).map pyStrip,
      ∃ k ∈ ks, ∃ t, tbl.lookup k = some t
        ∧ (parseLine l).tool = decTool t cols ∧ (parseLine l).tool.T = k := by
  intro l hl
  rw [List.mem_map] at hl
  obtain ⟨l', hl', rfl⟩ := hl
  rw [List.mem_filterMap] at hl'
  obtain ⟨j, hj, hjeq⟩ := hl'
  rcases hlj : tbl.lookup j with _ | tj
  · rw [hlj] at hjeq
    simp at hjeq
  · rw [hlj] at hjeq
    have hleq : l' = rowLine cols tj := by simpa using hjeq.symm
    subst hleq
    have hmem := lookup_some_mem tbl j tj hlj
    have hparse := parseLine_rowLine tj cols hcols hT (hR (j, tj) hmem)
    refine ⟨j, hj, tj, hlj, hparse, ?_⟩
    rw [hparse, decTool_T tj cols hcols hT]
    exact hTk (j, tj) hmem

/-- The row loop of `loadToolTable`, run over the saved data rows of a
duplicate-free list of positive keys of the table, ends with each such key
bound to the decoded record of its tool. -/
theorem roundtrip_rows (tbl : ToolTable) (cols : List Char)
    (hcols : ∀ c ∈ cols, c ∈ letterCols) (hT : 'T' ∈ cols)
    (hR : ∀ p ∈ tbl, pyStrip p.2.R = p.2.R)
    (hTk : ∀ p ∈ tbl, p.2.T = p.1) :
    ∀ (ks : List Int), ks.Nodup →
      (∀ k ∈ ks, k ∈ tableKeys tbl ∧ 0 < k) →
      ∀ (acc : ToolTable × List LogEvent) (k₀ : Int) (t₀ : Tool),
        k₀ ∈ ks → tbl.lookup k₀ = some t₀ →
        (((ks.filterMap
            (fun k => (tbl.lookup k).map (fun t => rowLine cols t))).map
              pyStrip).foldl stepLine acc).1.lookup k₀
          = some (decTool t₀ cols) := by
  intro ks
  induction ks with
  | nil =>
    intro _ _ acc k₀ t₀ hmem _
    simp at hmem
  | cons k ks' ih =>
    intro hnd hks acc k₀ t₀ hmem hlk
    obtain ⟨hkkeys, hkpos⟩ := hks k (by simp)
    obtain ⟨tk, htk⟩ :=
      Option.isSome_iff_exists.mp (lookup_isSome_of_mem_keys tbl k hkkeys)
    have hrow : (k :: ks').filterMap
        (fun k => (tbl.lookup k).map (fun t => rowLine cols t))
        = rowLine cols tk :: ks'.filterMap
            (fun k => (tbl.lookup k).map (fun t => rowLine cols t)) := by
      rw [List.filterMap_cons, htk]
      rfl
    have hmemtk : (k, tk) ∈ tbl := lookup_some_mem tbl k tk htk
    have hparse : (parseLine (pyStrip (rowLine cols tk))).tool
        = decTool tk cols :=
      parseLine_rowLine tk cols hcols hT (hR (k, tk) hmemtk)
    have hTtk : tk.T = k := hTk (k, tk) hmemtk
    rw [hrow, List.map_cons, List.foldl_cons]
    by_cases hk0 : k₀ = k
    · subst hk0
      have ht0 : t₀ = tk := by
        rw [htk] at hlk
        exact (Option.some.inj hlk).symm
      subst ht0
      have hne : ∀ l ∈ (ks'.filterMap
          (fun k => (tbl.lookup k).map (fun t => rowLine cols t))).map pyStrip,
          (parseLine l).tool.T ≠ k₀ := by
        intro l hl
        obtain ⟨j, hj, tj, _, _, hTj⟩ :=
          parseRow_T tbl cols hcols hT hR hTk ks' l hl
        rw [hTj]
        intro hc
        exact (List.nodup_cons.mp hnd).1 (hc ▸ hj)
      rw [foldl_stepLine_lookup_ne _ _ _ hne]
      simp only [stepLine, hparse, decTool_T t₀ cols hcols hT, hTtk]
      rw [if_neg (by omega)]
      exact lookup_tableSet_self acc.1 k₀ (decTool t₀ cols)
    · have hmem' : k₀ ∈ ks' := by
        rcases List.mem_cons.mp hmem with h | h
        · exact absurd h hk0
        · exact h
      exact ih (List.nodup_cons.mp hnd).2
        (fun j hj => hks j (by simp [hj])) _ k₀ t₀ hmem' hlk

/-- For a valid table (sentinel present, duplicate-free non-negative keys)
the sorted key list is `0` followed by the positive keys, so the save
loop's `drop 1` skips exactly the sentinel. -/
theorem sortedKeys_valid (tbl : ToolTable)
    (h0 : tbl.lookup 0 = some NO_TOOL)
    (hnd : (tableKeys tbl).Nodup)
    (hnn : ∀ k ∈ tableKeys tbl, 0 ≤ k) :
    ∃ ks, sortedKeys tbl = 0 :: ks ∧ ks.Nodup
      ∧ (∀ k ∈ ks, k ∈ tableKeys tbl ∧ 0 < k)
      ∧ (∀ k ∈ tableKeys tbl, k ≠ 0 → k ∈ ks) := by
  have hperm : List.Perm (List.insertionSort (· ≤ ·) (tableKeys tbl))
      (tableKeys tbl) :=
    List.perm_insertionSort (· ≤ ·) (tableKeys tbl)
  have hmem0 : (0 : Int) ∈ sortedKeys tbl := by
    rw [sortedKeys]
    exact hperm.mem_iff.mpr (mem_keys_of_lookup_some tbl 0 NO_TOOL h0)
  have hsorted : List.Sorted (· ≤ ·) (sortedKeys tbl) := by
    rw [sortedKeys]
    exact List.sorted_insertionSort (· ≤ ·) (tableKeys tbl)
  have hndS : (sortedKeys tbl).Nodup := by
    rw [sortedKeys]
    exact hperm.nodup_iff.mpr hnd
  have hmemS : ∀ k : Int, k ∈ sortedKeys tbl ↔ k ∈ tableKeys tbl := by
    intro k
    rw [sortedKeys]
    exact hperm.mem_iff
  obtain ⟨h, t, hht⟩ := List.exists_cons_of_ne_nil
    (show sortedKeys tbl ≠ [] by
      intro hc
      rw [hc] at hmem0
      simp at hmem0)
  have hh0 : h = 0 := by
    rw [hht] at hmem0 hsorted
    rcases List.mem_cons.mp hmem0 with h0' | h0'
    · exact h0'.symm
    · have hle : h ≤ 0 := (List.sorted_cons.mp hsorted).1 0 h0'
      have hge : 0 ≤ h := hnn h ((hmemS h).mp (by rw [hht]; simp))
      omega
  subst hh0
  refine ⟨t, hht, ?_, ?_, ?_⟩
  · rw [hht] at hndS
    exact (List.nodup_cons.mp hndS).2
  · intro k hk
    have hkS : k ∈ sortedKeys tbl := by
      rw [hht]
      simp [hk]
    have hkkeys := (hmemS k).mp hkS
    refine ⟨hkkeys, ?_⟩
    have h0le := hnn k hkkeys
    have hne : k ≠ 0 := by
      intro hc
      rw [hht] at hndS
      exact (List.nodup_cons.mp hndS).1 (hc ▸ hk)
    omega
  · intro k hkk hkne
    have hkS : k ∈ sortedKeys tbl := (hmemS k).mpr hkk
    rw [hht] at hkS
    rcases List.mem_cons.mp hkS with h' | h'
    · exact absurd h' hkne
    · exact h'

/-- C1 counterexample: the valid table `{0: NO_TOOL, 1: (T=1, P=2)}` saved
with the known-column selection `['P']` (which omits `'T'`) loses tool `1`
entirely on decode: without a `T` token the parsed tool number stays at
the default `-1`, so the row is skipped, and the reloaded table has no
record at key `1` — the claimed round trip fails for this selection. -/
theorem C1_counterexample :
    (loadToolTableText [] (saveToolTableText [] []
        [(0, NO_TOOL), (1, { DEFAULT_TOOL with T := 1, P := 2 })]
        ['P'] ['P'])).table.lookup 1 = none := by
  decide

/-- C1 (amended): for a valid tool table (sentinel `NO_TOOL` at key `0`,
duplicate-free non-negative keys, each record's `T` field equal to its
key), a column selection drawn from the single-letter columns that
*includes* `'T'`, strip-stable newline-free remarks, and newline-free
header and template lines, decoding the text written by `saveToolTable`
reproduces every non-sentinel row: the key maps to a record agreeing with
the original on every selected integer column exactly, on every selected
float column up to the 6-decimal-place formatting (`rat6`), and on the
remark; and the sentinel is reproduced at key `0`.  (Without `'T'` in the
selection every saved row decodes to tool number `-1` and is dropped —
see the counterexample.) -/
theorem C1_roundtrip_amended (tbl : ToolTable) (cols selfCols : List Char)
    (origHeader templateLines prevHeader : List (List Char))
    (hv0 : tbl.lookup 0 = some NO_TOOL)
    (hnd : (tableKeys tbl).Nodup)
    (hnn : ∀ k ∈ tableKeys tbl, 0 ≤ k)
    (hTk : ∀ p ∈ tbl, p.2.T = p.1)
    (hRem : ∀ p ∈ tbl, pyStrip p.2.R = p.2.R ∧ ('\n') ∉ p.2.R)
    (hcols : ∀ c ∈ cols, c ∈ letterCols) (hT : 'T' ∈ cols)
    (hH : ∀ l ∈ origHeader, ('\n') ∉ l)
    (hTpl : ∀ l ∈ templateLines, ('\n') ∉ l) :
    (∀ k t, tbl.lookup k = some t → k ≠ 0 →
      ∃ t', (loadToolTableText prevHeader
              (saveToolTableText origHeader templateLines tbl cols
                selfCols)).table.lookup k = some t'
        ∧ (∀ c ∈ cols, isIntCol c = true → getColI t' c = getColI t c)
        ∧ (∀ c ∈ cols, isFloatCol c = true →
            getColF t' c = rat6 (getColF t c))
        ∧ t'.R = t.R)
    ∧ (loadToolTableText prevHeader
        (saveToolTableText origHeader templateLines tbl cols
          selfCols)).table.lookup 0 = some NO_TOOL := by
  obtain ⟨ks, hks_eq, hks_nd, hks_mem, hks_all⟩ :=
    sortedKeys_valid tbl hv0 hnd hnn
  have hR1 : ∀ p ∈ tbl, pyStrip p.2.R = p.2.R := fun p hp => (hRem p hp).1
  have hR2 : ∀ p ∈ tbl, ('\n') ∉ p.2.R := fun p hp => (hRem p hp).2
  have hLne : saveToolTableLines origHeader templateLines tbl cols selfCols
      ≠ [] := by
    rw [saveToolTableLines]
    intro hc
    rcases List.append_eq_nil.mp hc with ⟨_, hc2⟩
    exact List.cons_ne_nil _ _ hc2
  have hLsplit : splitLines
      (saveToolTableText origHeader templateLines tbl cols selfCols)
      = saveToolTableLines origHeader templateLines tbl cols selfCols := by
    rw [saveToolTableText]
    exact splitLines_joinLines _ hLne
      (saveToolTableLines_no_nl origHeader templateLines tbl cols selfCols
        hcols hR2 hH hTpl)
  have hidx := lastSemiIdx_saveLines origHeader templateLines tbl cols
    selfCols hcols hT hR1
  have hdrop : (((saveToolTableLines origHeader templateLines tbl cols
        selfCols).map pyStrip).drop
      ((saveHeaderLines origHeader templateLines).length + 1))
      = ((ks.filterMap
          (fun k => (tbl.lookup k).map (fun t => rowLine cols t))).map
            pyStrip) := by
    rw [saveToolTableLines, hks_eq, List.map_append, List.map_cons,
      show (saveHeaderLines origHeader templateLines).length
        = ((saveHeaderLines origHeader templateLines).map pyStrip).length by
        rw [List.length_map]]
    rw [drop_append_cons_length]
    simp only [List.drop_succ_cons, List.drop_zero]
  have htable : (loadToolTableText prevHeader
      (saveToolTableText origHeader templateLines tbl cols selfCols)).table
      = (loadRows ((ks.filterMap
          (fun k => (tbl.lookup k).map (fun t => rowLine cols t))).map
            pyStrip)).1 := by
    rw [loadToolTableText, hLsplit,
      loadToolTableLines_table prevHeader _ _ hidx, hdrop]
  constructor
  · intro k t hlk hk0
    refine ⟨decTool t cols, ?_, ?_, ?_, rfl⟩
    · rw [htable, loadRows]
      exact roundtrip_rows tbl cols hcols hT hR1 hTk ks hks_nd hks_mem _ k t
        (hks_all k (mem_keys_of_lookup_some tbl k t hlk) hk0) hlk
    · intro c hc hci
      exact decTool_getColI t cols hcols c hci hc
    · intro c hc hcf
      exact decTool_getColF t cols hcols c hcf hc
  · have hne0 : ∀ l ∈ ((ks.filterMap
        (fun k => (tbl.lookup k).map (fun t => rowLine cols t))).map pyStrip),
        (parseLine l).tool.T ≠ 0 := by
      intro l hl
      obtain ⟨j, hj, tj, _, _, hTj⟩ :=
        parseRow_T tbl cols hcols hT hR1 hTk ks l hl
      rw [hTj]
      have := (hks_mem j hj).2
      omega
    rw [htable, loadRows, foldl_stepLine_lookup_ne _ _ 0 hne0]
    rfl

/-- C1 witness: the amended round trip at the concrete valid table
`{0: NO_TOOL, 1: (T=1, P=2)}` with the selection `['T', 'P']`. -/
theorem C1_witness :
    ∃ t', (loadToolTableText [] (saveToolTableText [] []
        [(0, NO_TOOL), (1, { DEFAULT_TOOL with T := 1, P := 2 })]
        ['T', 'P'] ['T'])).table.lookup 1 = some t'
      ∧ (∀ c ∈ ['T', 'P'], isIntCol c = true →
          getColI t' c = getColI { DEFAULT_TOOL with T := 1, P := 2 } c)
      ∧ (∀ c ∈ ['T', 'P'], isFloatCol c = true →
          getColF t' c = rat6 (getColF { DEFAULT_TOOL with T := 1, P := 2 } c))
      ∧ t'.R = ({ DEFAULT_TOOL with T := 1, P := 2 } : Tool).R :=
  (C1_roundtrip_amended
      [(0, NO_TOOL), (1, { DEFAULT_TOOL with T := 1, P := 2 })]
      ['T', 'P'] ['T'] [] [] []
      (by decide) (by decide) (by decide) (by decide) (by decide) (by decide)
      (by decide) (by decide) (by decide)).1
    1 { DEFAULT_TOOL with T := 1, P := 2 } (by decide) (by decide)
